import Mathlib

/-!
# kubesec `crypto/aes/cipher.go`: AES-GCM value encryption

A shallow embedding of `src/crypto/aes/cipher.go` (`parse`, `Cipher.Decrypt`,
`Cipher.Encrypt`) together with the parts of the Go standard library the file
calls: `strings.Split`, `strings.Join`, `strings.TrimPrefix`,
`encoding/base64` (`StdEncoding`), `crypto/aes` and `crypto/cipher` (GCM).

Go strings and byte slices are both finite byte sequences; the conversions
`string(b)` and `[]byte(s)` are the identity on them.
-/

namespace Kubesec

/-! ## Bytes and strings -/

/-- One octet. -/
abbrev Byte := Fin 256

/-- Go `[]byte`. -/
abbrev Bytes := List Byte

/-- Go `string`: an immutable byte sequence. -/
abbrev Str := List Byte

/-- The bytes of an ASCII literal. -/
def str (s : String) : Str := s.toList.map (fun c => Fin.ofNat c.toNat)

/-- The separator `"."` of the wire format. -/
def dot : Byte := 46

/-- The base64 padding character `'='`. -/
def padChar : Byte := 61

/-- Line feed, skipped by the base64 decoder. -/
def LF : Byte := 10

/-- Carriage return, skipped by the base64 decoder. -/
def CR : Byte := 13

/-! ## `strings` -/

/-- Go `strings.Split(value, ".")`: the substrings between the dots; a text with
`n` dots gives `n + 1` fields, the empty text gives one empty field. -/
def Split : Str → List Str
  | [] => [[]]
  | c :: cs =>
    if c = dot then [] :: Split cs
    else
      match Split cs with
      | [] => [[c]]
      | h :: t => (c :: h) :: t

/-- Go `strings.Join(chunks, ".")`. -/
def Join : List Str → Str
  | [] => []
  | [c] => c
  | c :: d :: rest => c ++ dot :: Join (d :: rest)

/-- Go `strings.TrimPrefix(s, ".")`: `s` without one leading dot, if it has one. -/
def TrimPrefix : Str → Str
  | [] => []
  | c :: cs => if c = dot then cs else c :: cs

/-! ## `encoding/base64`, `StdEncoding` -/

/-- The alphabet of `base64.StdEncoding`. -/
def encodeStd : Str :=
  str "ABCDEFGHIJKLMNOPQRSTUVWXYZabcdefghijklmnopqrstuvwxyz0123456789+/"

/-- The character `enc.encode[i]` of a 6-bit value. -/
def encodeChar (i : Nat) : Byte := encodeStd.getD i 0

/-- The 6-bit value `enc.decodeMap[c]` of a character, `none` for the library's
`0xff` (not in the alphabet). -/
def decodeMap (c : Byte) : Option Nat :=
  if encodeStd.indexOf c < 64 then some (encodeStd.indexOf c) else none

/-- Go `base64.StdEncoding.EncodeToString`: three bytes give four characters,
a remainder of one or two bytes is padded with `=`. -/
def EncodeToString : Bytes → Str
  | [] => []
  | [a] =>
    let val := a.val * 65536
    [encodeChar (val / 262144 % 64), encodeChar (val / 4096 % 64), padChar, padChar]
  | [a, b] =>
    let val := a.val * 65536 + b.val * 256
    [encodeChar (val / 262144 % 64), encodeChar (val / 4096 % 64),
      encodeChar (val / 64 % 64), padChar]
  | a :: b :: c :: rest =>
    let val := a.val * 65536 + b.val * 256 + c.val
    encodeChar (val / 262144 % 64) :: encodeChar (val / 4096 % 64) ::
      encodeChar (val / 64 % 64) :: encodeChar (val % 64) :: EncodeToString rest

/-- The quantum loop of the decoder on a text without line breaks: four
characters give three bytes; the last quantum may end in `=` (two bytes) or `==`
(one byte), after which nothing may follow; the low bits a padded quantum leaves
over are dropped unchecked (the encoding is not strict). `none` is the library's
`CorruptInputError`. -/
def decodeQuanta : Str → Option Bytes
  | [] => some []
  | c0 :: c1 :: c2 :: c3 :: rest =>
    match decodeMap c0, decodeMap c1 with
    | some d0, some d1 =>
      match decodeMap c2, decodeMap c3 with
      | some d2, some d3 =>
        let val := d0 * 262144 + d1 * 4096 + d2 * 64 + d3
        match decodeQuanta rest with
        | some t =>
          some (Fin.ofNat (val / 65536) :: Fin.ofNat (val / 256) :: Fin.ofNat val :: t)
        | none => none
      | some d2, none =>
        let val := d0 * 262144 + d1 * 4096 + d2 * 64
        if c3 = padChar ∧ rest = [] then
          some [Fin.ofNat (val / 65536), Fin.ofNat (val / 256)]
        else none
      | none, _ =>
        let val := d0 * 262144 + d1 * 4096
        if c2 = padChar ∧ c3 = padChar ∧ rest = [] then
          some [Fin.ofNat (val / 65536)]
        else none
    | _, _ => none
  | _ => none

/-- Go `base64.StdEncoding.DecodeString`: `\r` and `\n` are skipped wherever
they stand, the rest is decoded quantum by quantum. -/
def DecodeString (s : Str) : Option Bytes :=
  decodeQuanta (s.filter (fun c => !(c = LF || c = CR)))

/-! ## `cipher.go`: the codec -/

/-- The constant `gcmNonceSize` (line 14). -/
def gcmNonceSize : Nat := 12

/-- The struct `encryptedValue` (lines 18-22). -/
structure encryptedValue where
  data : Bytes
  iv : Bytes
  tag : Bytes
  deriving DecidableEq, Repr

/-- The field a base64 error message names. -/
inductive Field
  | data
  | iv
  | tag
  deriving DecidableEq, Repr

/-- The errors the file returns, one constructor per message. The text that
`%s` would add from a library error is left out, except the rejected value of
`Unrecognized format of %s` and the key length of `aes.KeySizeError`. -/
inductive Err
  /-- `Unrecognized format of %s` (line 62): the spec's `MalformedFormat`. -/
  | unrecognizedFormat (value : Str)
  /-- `Error base64-decoding data|iv|tag: %s` (lines 66, 70, 77): `InvalidEncoding`. -/
  | base64Decoding (field : Field)
  /-- `Unexpected iv: %s` (line 73): `InvalidNonceLength`. -/
  | unexpectedIv
  /-- `aes.KeySizeError` returned as it is by `Decrypt` (line 39): `InvalidKeySize`. -/
  | keySizeError (size : Nat)
  /-- The error of `cipher.NewGCM` returned as it is by `Decrypt` (line 43). -/
  | newGCMError
  /-- `Could not decrypt with AES_GCM: %s` (line 49): `AuthenticationFailed`. -/
  | couldNotDecrypt
  /-- `Could not initialize AES cipher: %s` (line 88): `InvalidKeySize`. -/
  | couldNotInitialize (size : Nat)
  /-- `Could not generate random bytes for IV: %s` (line 95): `RandomSourceFailure`. -/
  | couldNotGenerateRandom
  /-- `Could not create GCM: %s` (line 102). -/
  | couldNotCreateGCM
  deriving DecidableEq, Repr

/-- The chunks of `parse` after lines 57-60: the fields between the dots, with
an empty first field put before them when there are exactly two (GMAC). -/
def expandedChunks (value : Str) : List Str :=
  let chunks := Split value
  if chunks.length = 2 then [] :: chunks else chunks

/-- Equality of `Except` values is decidable. -/
instance instDecidableEqExcept {ε α : Type} [DecidableEq ε] [DecidableEq α] :
    DecidableEq (Except ε α)
  | .ok a, .ok b =>
    if h : a = b then isTrue (by rw [h]) else isFalse (fun e => h (by injection e))
  | .error a, .error b =>
    if h : a = b then isTrue (by rw [h]) else isFalse (fun e => h (by injection e))
  | .ok _, .error _ => isFalse (fun e => by cases e)
  | .error _, .ok _ => isFalse (fun e => by cases e)

/-- Lines 64-79 of `parse`: the three chunks are decoded in their order, and
the length of the IV is checked before the tag is decoded. -/
def decodeChunks (c0 c1 c2 : Str) : Except Err encryptedValue :=
  match DecodeString c0 with
  | none => .error (.base64Decoding .data)
  | some data =>
    match DecodeString c1 with
    | none => .error (.base64Decoding .iv)
    | some iv =>
      if iv.length ≠ gcmNonceSize then .error .unexpectedIv
      else
        match DecodeString c2 with
        | none => .error (.base64Decoding .tag)
        | some tag => .ok ⟨data, iv, tag⟩

/-- The function `parse` (lines 56-80). -/
def parse (value : Str) : Except Err encryptedValue :=
  match expandedChunks value with
  | [c0, c1, c2] => decodeChunks c0 c1 c2
  | _ => .error (.unrecognizedFormat value)

/-! ## `crypto/cipher`: the AEAD interface and its use in `cipher.go` -/

/-- The constant `gcmStandardNonceSize` of `crypto/cipher/gcm.go`. -/
def gcmStandardNonceSize : Nat := 12

/-- The constant `gcmBlockSize` of `crypto/cipher/gcm.go`. -/
def gcmBlockSize : Nat := 16

/-- The constant `gcmTagSize` of `crypto/cipher/gcm.go`. -/
def gcmTagSize : Nat := 16

/-- The constant `aes.BlockSize`. -/
def aesBlockSize : Nat := 16

/-- What a Go call does: it returns its results or it panics. -/
inductive Outcome (α : Type)
  | returns (v : α)
  | panics
  deriving DecidableEq, Repr

/-- Go's `cipher.AEAD` as `cipher.NewGCM` makes it: `sealFn nonce plaintext aad`
is `Seal(nil, nonce, plaintext, aad)` and `openFn nonce ciphertext aad` is
`Open(nil, nonce, ciphertext, aad)`, `none` for its error, both for a nonce of
the standard size; a sealed message is the plaintext's length plus the tag's. -/
structure AEAD where
  sealFn : Bytes → Bytes → Bytes → Bytes
  openFn : Bytes → Bytes → Bytes → Option Bytes
  overhead : ∀ nonce plaintext aad, nonce.length = gcmStandardNonceSize →
    (sealFn nonce plaintext aad).length = plaintext.length + gcmTagSize

/-- The method `Seal`: it panics on a nonce of another length than 12. The
library's limit on the plaintext's length (2^36 - 32 bytes) is not modelled. -/
def AEAD.Seal (g : AEAD) (nonce plaintext aad : Bytes) : Outcome Bytes :=
  if nonce.length ≠ gcmStandardNonceSize then .panics
  else .returns (g.sealFn nonce plaintext aad)

/-- The method `Open`: it panics on a nonce of another length than 12. -/
def AEAD.Open (g : AEAD) (nonce ciphertext aad : Bytes) : Outcome (Option Bytes) :=
  if nonce.length ≠ gcmStandardNonceSize then .panics
  else .returns (g.openFn nonce ciphertext aad)

/-- The AEAD primitive: the GCM mode of AES under each key. -/
abbrev Primitive := Bytes → AEAD

/-- The `cipher.Block` that `aes.NewCipher` returns. -/
structure Block where
  key : Bytes

/-- The method `BlockSize` of an AES block. -/
def Block.BlockSize (_ : Block) : Nat := aesBlockSize

/-- Go `aes.NewCipher`: a key of 16, 24 or 32 bytes gives a block, any other
length `k` the error `KeySizeError(k)`. -/
def NewCipher (key : Bytes) : Except Nat Block :=
  if key.length = 16 ∨ key.length = 24 ∨ key.length = 32 then .ok ⟨key⟩
  else .error key.length

/-- Go `cipher.NewGCM`: it refuses a block cipher whose block size is not 16. -/
def NewGCM (lib : Primitive) (c : Block) : Option AEAD :=
  if c.BlockSize ≠ gcmBlockSize then none else some (lib c.key)

/-- The struct `stashedValue` (lines 24-27). -/
structure stashedValue where
  iv : Bytes
  plaintext : Str
  deriving DecidableEq, Repr

/-- A Go `interface{}` value, as far as the file tells such values apart: `nil`,
a `stashedValue`, or a value of any other type. -/
inductive Iface
  | nil
  | stashed (v : stashedValue)
  | other (v : Str)
  deriving DecidableEq, Repr

/-- The type assertion `stash.(stashedValue)` in its two-result form: the value
and `true`, or the zero value and `false`. -/
def Iface.assertStashedValue : Iface → stashedValue × Bool
  | .stashed v => (v, true)
  | _ => (⟨[], []⟩, false)

/-- What `rand.Read(iv)` does on the buffer `iv` of `gcmNonceSize` bytes: it
fills it with these bytes (`some`) or returns an error (`none`). -/
abbrev RandRead := Option { iv : Bytes // iv.length = gcmNonceSize }

/-- The method `Cipher.Decrypt` (lines 29-54); its results are `plaintext`,
`stash` and `err`. -/
def Decrypt (lib : Primitive) (ciphertext : Str) (key aad : Bytes) :
    Outcome (Str × Iface × Option Err) :=
  if ciphertext = [] ∧ aad.length = 0 then .returns ([], .nil, none)
  else
    match parse ciphertext with
    | .error err => .returns ([], .nil, some err)
    | .ok encryptedValue =>
      match NewCipher key with
      | .error size => .returns ([], .nil, some (.keySizeError size))
      | .ok aescipher =>
        match NewGCM lib aescipher with
        | none => .returns ([], .nil, some .newGCMError)
        | some gcm =>
          let data := encryptedValue.data ++ encryptedValue.tag
          match gcm.Open encryptedValue.iv data aad with
          | .panics => .panics
          | .returns none => .returns ([], .nil, some .couldNotDecrypt)
          | .returns (some decryptedBytes) =>
            .returns (decryptedBytes, .stashed ⟨encryptedValue.iv, decryptedBytes⟩, none)

/-- Lines 90-99 of `Cipher.Encrypt`: the IV is the stash's when the stash is a
`stashedValue` of the same plaintext, and is read from the random source
otherwise. -/
def chooseIV (rand : RandRead) (plaintext : Str) (stash : Iface) : Except Err Bytes :=
  let (stash, ok) := stash.assertStashedValue
  if !ok || stash.plaintext ≠ plaintext then
    match rand with
    | none => .error .couldNotGenerateRandom
    | some iv => .ok iv.val
  else .ok stash.iv

/-- Lines 106-111 of `Cipher.Encrypt`: the three parts in base64, joined with
dots, without one leading dot. -/
def encode (data iv tag : Bytes) : Str :=
  let chunks := [EncodeToString data, EncodeToString iv, EncodeToString tag]
  TrimPrefix (Join chunks)

/-- Lines 104-111 of `Cipher.Encrypt`: seal, cut the last `aes.BlockSize` bytes
off as the tag (a slice expression, which panics out of range), encode. -/
def sealEncode (gcm : AEAD) (iv : Bytes) (plaintext : Str) (aad : Bytes) :
    Outcome (Str × Option Err) :=
  match gcm.Seal iv plaintext aad with
  | .panics => .panics
  | .returns out =>
    if out.length < aesBlockSize then .panics
    else
      let data := out.take (out.length - aesBlockSize)
      let tag := out.drop (out.length - aesBlockSize)
      .returns (encode data iv tag, none)

/-- The method `Cipher.Encrypt` (lines 82-112); its results are the ciphertext
string and `err`. -/
def Encrypt (lib : Primitive) (rand : RandRead) (plaintext : Str) (key aad : Bytes)
    (stash : Iface) : Outcome (Str × Option Err) :=
  if plaintext = [] ∧ aad.length = 0 then .returns ([], none)
  else
    match NewCipher key with
    | .error size => .returns ([], some (.couldNotInitialize size))
    | .ok aescipher =>
      match chooseIV rand plaintext stash with
      | .error err => .returns ([], some err)
      | .ok iv =>
        match NewGCM lib aescipher with
        | none => .returns ([], some .couldNotCreateGCM)
        | some gcm => sealEncode gcm iv plaintext aad

/-! ## `crypto/aes` and `crypto/cipher`: AES in Galois/Counter Mode -/

/-- The AES S-box (FIPS 197, figure 7) as one number: its 256 entries in order,
two hexadecimal digits each. -/
def sbox : Nat :=
  0x637c777bf26b6fc53001672bfed7ab76ca82c97dfa5947f0add4a2af9ca472c0b7fd9326363ff7cc34a5e5f171d8311504c723c31896059a071280e2eb27b27509832c1a1b6e5aa0523bd6b329e32f8453d100ed20fcb15b6acbbe394a4c58cfd0efaafb434d338545f9027f503c9fa851a3408f929d38f5bcb6da2110fff3d2cd0c13ec5f974417c4a77e3d645d197360814fdc222a908846eeb814de5e0bdbe0323a0a4906245cc2d3ac629195e479e7c8376d8dd54ea96c56f4ea657aae08ba78252e1ca6b4c6e8dd741f4bbd8b8a703eb5664803f60e613557b986c11d9ee1f8981169d98e949b1e87e9ce5528df8ca1890dbfe6426841992d0fb054bb16

/-- SubBytes on one byte. -/
def subByte (b : Nat) : Nat := sbox / 256 ^ (255 - b) % 256

/-- Multiplication by `x` in GF(2^8) modulo `x^8 + x^4 + x^3 + x + 1`. -/
def xtime (b : Nat) : Nat := if b < 128 then 2 * b else (2 * b - 256) ^^^ 0x1b

/-- The round constants `Rcon[1..10]`. -/
def rcon : List Nat := [0x01, 0x02, 0x04, 0x08, 0x10, 0x20, 0x40, 0x80, 0x1b, 0x36]

/-- SubWord on a 32-bit word. -/
def subWord (w : Nat) : Nat :=
  subByte (w / 16777216 % 256) * 16777216 + subByte (w / 65536 % 256) * 65536 +
    subByte (w / 256 % 256) * 256 + subByte (w % 256)

/-- RotWord on a 32-bit word. -/
def rotWord (w : Nat) : Nat := w % 16777216 * 256 + w / 16777216

/-- The big-endian number of a byte sequence. -/
def beNat (bs : Bytes) : Nat := bs.foldl (fun acc b => acc * 256 + b.val) 0

/-- The first `nk` words of the key schedule: the key itself. -/
def keyWords : Bytes → List Nat
  | a :: b :: c :: d :: rest => beNat [a, b, c, d] :: keyWords rest
  | _ => []

/-- KeyExpansion (FIPS 197, 5.2): `fuel` more words after the words `w` already
there, whose number is `i`. -/
def expandFrom (nk : Nat) : Nat → Nat → List Nat → List Nat
  | 0, _, w => w
  | fuel + 1, i, w =>
    let prev := w.getD (i - 1) 0
    let temp :=
      if i % nk = 0 then subWord (rotWord prev) ^^^ (rcon.getD (i / nk - 1) 0 * 16777216)
      else if 6 < nk ∧ i % nk = 4 then subWord prev
      else prev
    expandFrom nk fuel (i + 1) (w ++ [w.getD (i - nk) 0 ^^^ temp])

/-- The key schedule of a key of 16, 24 or 32 bytes: `4 * (Nr + 1)` words. -/
def expandKey (key : Bytes) : List Nat :=
  let nk := key.length / 4
  expandFrom nk (4 * (nk + 7) - nk) nk (keyWords key)

/-- The 16 bytes of a block, first byte first. -/
def blockBytes (x : Nat) : List Nat :=
  (List.range 16).map (fun i => x / 256 ^ (15 - i) % 256)

/-- The block of 16 bytes. -/
def bytesBlock (s : List Nat) : Nat := s.foldl (fun acc b => acc * 256 + b) 0

/-- AddRoundKey with the four words of round `r`; byte `i` of the state is row
`i % 4` of column `i / 4`. -/
def addRoundKey (w : List Nat) (r : Nat) (s : List Nat) : List Nat :=
  (List.range 16).map
    (fun i => s.getD i 0 ^^^ (w.getD (4 * r + i / 4) 0 / 256 ^ (3 - i % 4) % 256))

/-- ShiftRows: row `r` moves `r` columns to the left. -/
def shiftRows (s : List Nat) : List Nat :=
  (List.range 16).map (fun i => s.getD (i % 4 + 4 * ((i / 4 + i % 4) % 4)) 0)

/-- MixColumns on one column. -/
def mixColumn (a0 a1 a2 a3 : Nat) : List Nat :=
  [xtime a0 ^^^ (xtime a1 ^^^ a1) ^^^ a2 ^^^ a3,
   a0 ^^^ xtime a1 ^^^ (xtime a2 ^^^ a2) ^^^ a3,
   a0 ^^^ a1 ^^^ xtime a2 ^^^ (xtime a3 ^^^ a3),
   (xtime a0 ^^^ a0) ^^^ a1 ^^^ a2 ^^^ xtime a3]

/-- MixColumns. -/
def mixColumns : List Nat → List Nat
  | a0 :: a1 :: a2 :: a3 :: rest => mixColumn a0 a1 a2 a3 ++ mixColumns rest
  | _ => []

/-- The rounds `r, r + 1, ...` of the cipher, `fuel` of them before the last. -/
def rounds (w : List Nat) : Nat → Nat → List Nat → List Nat
  | 0, r, s => addRoundKey w r (shiftRows (s.map subByte))
  | fuel + 1, r, s =>
    rounds w fuel (r + 1) (addRoundKey w r (mixColumns (shiftRows (s.map subByte))))

/-- The AES block cipher (FIPS 197, 5.1) on a 128-bit block under the schedule `w`. -/
def encryptBlock (w : List Nat) (x : Nat) : Nat :=
  bytesBlock (rounds w (w.length / 4 - 2) 1 (addRoundKey w 0 (blockBytes x)))

/-- One step of the multiplication in GF(2^128) (SP 800-38D, algorithm 1). -/
def gfStep (x : Nat) (zv : Nat × Nat) (i : Nat) : Nat × Nat :=
  let z := if x / 2 ^ (127 - i) % 2 = 1 then zv.1 ^^^ zv.2 else zv.1
  let v := if zv.2 % 2 = 1 then zv.2 / 2 ^^^ 0xe1000000000000000000000000000000 else zv.2 / 2
  (z, v)

/-- Multiplication of blocks in GF(2^128). -/
def gfMul (x y : Nat) : Nat := ((List.range 128).foldl (gfStep x) (0, y)).1

/-- GHASH under the hash subkey `h`. -/
def ghash (h : Nat) (blocks : List Nat) : Nat :=
  blocks.foldl (fun y b => gfMul (y ^^^ b) h) 0

/-- A byte sequence as 128-bit blocks, the last one padded with zero bits. -/
def toBlocks : Nat → Bytes → List Nat
  | 0, _ => []
  | fuel + 1, bs =>
    if bs = [] then []
    else beNat (bs.take 16) * 256 ^ (16 - (bs.take 16).length) :: toBlocks fuel (bs.drop 16)

/-- The counter block `inc32^i (J0)` for a 96-bit nonce: `nonce || [i + 1]_32`. -/
def counterBlock (nonce : Bytes) (i : Nat) : Nat :=
  beNat nonce * 4294967296 + (i + 1) % 4294967296

/-- Byte `j` of the key stream of GCTR, which starts at `inc32 (J0)`. -/
def keyStream (w : List Nat) (nonce : Bytes) (j : Nat) : Byte :=
  Fin.ofNat (encryptBlock w (counterBlock nonce (j / 16 + 1)) / 256 ^ (15 - j % 16))

/-- The bytes `bs` XOR the stream `ks` from position `j` on. -/
def xorStream (ks : Nat → Byte) : Nat → Bytes → Bytes
  | _, [] => []
  | j, b :: bs => (b ^^^ ks j) :: xorStream ks (j + 1) bs

/-- The 16 bytes of the authentication tag of the ciphertext body `c`. -/
def gcmTag (w : List Nat) (nonce c aad : Bytes) : Bytes :=
  let h := encryptBlock w 0
  let s := ghash h (toBlocks aad.length aad ++ toBlocks c.length c ++
    [aad.length * 8 % 18446744073709551616 * 18446744073709551616 + c.length * 8 % 18446744073709551616])
  (blockBytes (s ^^^ encryptBlock w (counterBlock nonce 0))).map Fin.ofNat

/-- AES-GCM `Seal(nil, nonce, plaintext, aad)`: the body followed by the tag. -/
def aesgcmSeal (key nonce plaintext aad : Bytes) : Bytes :=
  let w := expandKey key
  let c := xorStream (keyStream w nonce) 0 plaintext
  c ++ gcmTag w nonce c aad

/-- AES-GCM `Open(nil, nonce, ciphertext, aad)`: `none` is the library's
`cipher: message authentication failed`. -/
def aesgcmOpen (key nonce ciphertext aad : Bytes) : Option Bytes :=
  let w := expandKey key
  if ciphertext.length < 16 then none
  else
    let c := ciphertext.take (ciphertext.length - 16)
    let tag := ciphertext.drop (ciphertext.length - 16)
    if gcmTag w nonce c aad = tag then some (xorStream (keyStream w nonce) 0 c) else none


/-- The AEAD primitive of the Go library: AES in Galois/Counter Mode with the
standard nonce and tag sizes. -/
def aesgcm : Primitive := fun key =>
  { sealFn := aesgcmSeal key
    openFn := aesgcmOpen key
    overhead := by
      intro nonce plaintext aad _
      have hlen : ∀ (ks : Nat → Byte) (bs : Bytes) (j : Nat),
          (xorStream ks j bs).length = bs.length := by
        intro ks bs
        induction bs with
        | nil => intro j; rfl
        | cons b bs ih => intro j; simp [xorStream, ih]
      simp [aesgcmSeal, hlen, gcmTag, blockBytes, gcmTagSize] }

/-- The key of the spec's scenario: 16 zero bytes. -/
def zeroKey : Bytes := List.replicate 16 0

/-- A nonce of 12 zero bytes, as a deterministic random source returns it. -/
def zeroNonce : { iv : Bytes // iv.length = gcmNonceSize } := ⟨List.replicate 12 0, by decide⟩

/-! ## Notions for the proofs about the block cipher -/

/-- The inverse S-box (FIPS 197, figure 14) as one number: its 256 entries in
order, two hexadecimal digits each. -/
def invSbox : Nat :=
  0x52096ad53036a538bf40a39e81f3d7fb7ce339829b2fff87348e4344c4dee9cb547b9432a6c2233dee4c950b42fac34e082ea16628d924b2765ba2496d8bd12572f8f66486689816d4a45ccc5d65b6926c704850fdedb9da5e154657a78d9d8490d8ab008cbcd30af7e45805b8b34506d02c1e8fca3f0f02c1afbd0301138a6b3a9111414f67dcea97f2cfcef0b4e67396ac7422e7ad3585e2f937e81c75df6e47f11a711d29c5896fb7620eaa18be1bfc563e4bc6d279209adbc0fe78cd5af41fdda8338807c731b11210592780ec5f60517fa919b54a0d2de57a9f93c99cefa0e03b4dae2af5b0c8ebbb3c83539961172b047eba77d626e169146355210c7d

/-- InvSubBytes on one byte. -/
def invSubByte (b : Nat) : Nat := invSbox / 256 ^ (255 - b) % 256

/-- The check that `xtime` is additive on all pairs of bytes. -/
def xtimeAdditive : Bool :=
  (List.range 256).all (fun a =>
    (List.range 256).all (fun b => xtime (a ^^^ b) == xtime a ^^^ xtime b))

/-- A state of the cipher: 16 bytes. -/
def IsState (s : List Nat) : Prop := s.length = 16 ∧ ∀ b ∈ s, b < 256

/-- MixColumns applied four times. -/
def mixColumns4 (s : List Nat) : List Nat := mixColumns (mixColumns (mixColumns (mixColumns s)))

/-- The check that MixColumns applied four times gives back each column with
one non-zero byte. -/
def mixColumns4Unit : Bool :=
  (List.range 256).all (fun a =>
    mixColumns4 [a, 0, 0, 0] == [a, 0, 0, 0] && mixColumns4 [0, a, 0, 0] == [0, a, 0, 0] &&
    mixColumns4 [0, 0, a, 0] == [0, 0, a, 0] && mixColumns4 [0, 0, 0, a] == [0, 0, 0, a])

/-- A column: 4 bytes. -/
def IsColumn (c : List Nat) : Prop := c.length = 4 ∧ ∀ b ∈ c, b < 256

/-- Whether `g` inverts the multiplication by `h` in GF(2^128), checked on the
128 powers of two. -/
def isHashInverse (h g : Nat) : Bool :=
  (List.range 128).all fun k => gfMul (gfMul (2 ^ k) h) g == 2 ^ k

/-! ## Lemmas: the laws of AES-GCM -/

/-- The stream XOR keeps the length. -/
theorem xorStream_length (ks : Nat → Byte) (j : Nat) (bs : Bytes) :
    (xorStream ks j bs).length = bs.length := by
  induction bs generalizing j with
  | nil => rfl
  | cons b bs ih => simp [xorStream, ih]

/-- The tag has 16 bytes. -/
theorem gcmTag_length (w : List Nat) (nonce c aad : Bytes) :
    (gcmTag w nonce c aad).length = 16 := by
  simp [gcmTag, blockBytes]

/-- The value of the XOR of two bytes. -/
theorem byte_xor_val (b k : Byte) : (b ^^^ k).val = b.val ^^^ k.val := by
  have h1 : b.val ^^^ k.val < 2 ^ 8 := Nat.xor_lt_two_pow b.isLt k.isLt
  have h2 : (b ^^^ k).val = (b.val ^^^ k.val) % 256 := rfl
  rw [h2]
  exact Nat.mod_eq_of_lt h1

/-- XOR with the same byte twice gives the byte back. -/
theorem byte_xor_cancel (b k : Byte) : (b ^^^ k) ^^^ k = b := by
  apply Fin.ext
  rw [byte_xor_val, byte_xor_val, Nat.xor_assoc, Nat.xor_self, Nat.xor_zero]

/-- The stream XOR is its own inverse. -/
theorem xorStream_xorStream (ks : Nat → Byte) (j : Nat) (bs : Bytes) :
    xorStream ks j (xorStream ks j bs) = bs := by
  induction bs generalizing j with
  | nil => rfl
  | cons b bs ih => simp [xorStream, ih, byte_xor_cancel]

/-- AES-GCM: `Open` gives back what `Seal` sealed under the same key, nonce and
additional data. -/
theorem aesgcm_open_seal (key nonce plaintext aad : Bytes) :
    aesgcmOpen key nonce (aesgcmSeal key nonce plaintext aad) aad = some plaintext := by
  simp [aesgcmOpen, aesgcmSeal, xorStream_length, gcmTag_length, xorStream_xorStream]

/-- AES-GCM: what `Open` accepts is what `Seal` writes for the plaintext it
returns. -/
theorem aesgcm_seal_open (key nonce ciphertext aad plaintext : Bytes)
    (h : aesgcmOpen key nonce ciphertext aad = some plaintext) :
    aesgcmSeal key nonce plaintext aad = ciphertext := by
  unfold aesgcmOpen at h
  simp only at h
  split at h
  · exact absurd h (by simp)
  · split at h
    · rename_i htag
      injection h with h
      subst h
      simp only [aesgcmSeal, xorStream_xorStream, htag]
      exact List.take_append_drop _ _
    · exact absurd h (by simp)

/-- AES-GCM: an accepted ciphertext is 16 bytes longer than its plaintext. -/
theorem aesgcm_open_length (key nonce ciphertext aad plaintext : Bytes)
    (h : aesgcmOpen key nonce ciphertext aad = some plaintext) :
    ciphertext.length = plaintext.length + 16 := by
  have h2 := aesgcm_seal_open key nonce ciphertext aad plaintext h
  rw [← h2]
  simp [aesgcmSeal, xorStream_length, gcmTag_length]


/-- The primitive `aesgcm` opens what it sealed. -/
theorem aesgcm_opens_sealed (key nonce plaintext aad : Bytes) :
    (aesgcm key).openFn nonce ((aesgcm key).sealFn nonce plaintext aad) aad =
      some plaintext :=
  aesgcm_open_seal key nonce plaintext aad

/-- The primitive `aesgcm` seals to what it opened. -/
theorem aesgcm_seals_opened (key nonce ciphertext aad plaintext : Bytes)
    (h : (aesgcm key).openFn nonce ciphertext aad = some plaintext) :
    (aesgcm key).sealFn nonce plaintext aad = ciphertext :=
  aesgcm_seal_open key nonce ciphertext aad plaintext h

/-- The primitive `aesgcm` opens only what is 16 bytes longer than the plaintext. -/
theorem aesgcm_opened_length (key nonce ciphertext aad plaintext : Bytes)
    (h : (aesgcm key).openFn nonce ciphertext aad = some plaintext) :
    ciphertext.length = plaintext.length + gcmTagSize :=
  aesgcm_open_length key nonce ciphertext aad plaintext h

/-- AES-GCM accepts at most one tag of 16 bytes for a nonce, a body and
additional data. -/
theorem aesgcm_tag_unique (key nonce c t1 t2 aad p1 p2 : Bytes)
    (h1 : t1.length = gcmTagSize) (h2 : t2.length = gcmTagSize)
    (ho1 : (aesgcm key).openFn nonce (c ++ t1) aad = some p1)
    (ho2 : (aesgcm key).openFn nonce (c ++ t2) aad = some p2) : t1 = t2 := by
  have key_fact : ∀ (t p : Bytes), t.length = gcmTagSize →
      aesgcmOpen key nonce (c ++ t) aad = some p →
      gcmTag (expandKey key) nonce c aad = t := by
    intro t p ht ho
    unfold aesgcmOpen at ho
    simp only [List.length_append, ht, gcmTagSize, Nat.add_sub_cancel, List.take_left,
      List.drop_left] at ho
    split at ho
    · exact absurd ho (by simp)
    · split at ho
      · rename_i heq
        exact heq
      · exact absurd ho (by simp)
  rw [← key_fact t1 p1 h1 ho1, ← key_fact t2 p2 h2 ho2]

/-! ## Lemmas: the AES block cipher is injective -/

set_option maxRecDepth 100000 in
/-- The inverse S-box inverts the S-box. -/
theorem invSubByte_subByte : ∀ b, b < 256 → invSubByte (subByte b) = b := by decide!

set_option maxRecDepth 1000000 in
/-- The check of additivity succeeds. -/
theorem xtimeAdditive_true : xtimeAdditive = true := by decide!

/-- Multiplication by `x` is additive on bytes. -/
theorem xtime_xor (a b : Nat) (ha : a < 256) (hb : b < 256) :
    xtime (a ^^^ b) = xtime a ^^^ xtime b := by
  have h := xtimeAdditive_true
  simp only [xtimeAdditive, List.all_eq_true, List.mem_range, beq_iff_eq] at h
  exact h a ha b hb

/-- Multiplication by `x` of a byte is a byte. -/
theorem xtime_lt (a : Nat) (ha : a < 256) : xtime a < 256 := by
  unfold xtime
  split
  · omega
  · have h1 : 2 * a - 256 < 2 ^ 8 := by omega
    have h2 : (0x1b : Nat) < 2 ^ 8 := by decide
    exact Nat.xor_lt_two_pow h1 h2

/-- The XOR of two bytes is a byte. -/
theorem xor_lt_256 (a b : Nat) (ha : a < 256) (hb : b < 256) : a ^^^ b < 256 := by
  have h1 : a < 2 ^ 8 := ha
  have h2 : b < 2 ^ 8 := hb
  exact Nat.xor_lt_two_pow h1 h2

/-- An element of a state, or the default, is a byte. -/
theorem IsState.getD_lt {s : List Nat} (h : IsState s) (i : Nat) : s.getD i 0 < 256 := by
  by_cases hi : i < s.length
  · rw [List.getD_eq_getElem _ _ hi]
    exact h.2 _ (List.getElem_mem _)
  · rw [List.getD_eq_default _ _ (by omega)]
    decide

/-- Two lists of 16 elements with the same elements are equal. -/
theorem eq_of_getD_eq {s t : List Nat} (hs : s.length = 16) (ht : t.length = 16)
    (h : ∀ i, i < 16 → s.getD i 0 = t.getD i 0) : s = t := by
  apply List.ext_getElem (by rw [hs, ht])
  intro i h1 h2
  have := h i (by omega)
  rwa [List.getD_eq_getElem _ _ h1, List.getD_eq_getElem _ _ h2] at this

/-- AddRoundKey keeps states. -/
theorem addRoundKey_state (w : List Nat) (r : Nat) (s : List Nat) (hs : IsState s) :
    IsState (addRoundKey w r s) := by
  refine ⟨by simp [addRoundKey], ?_⟩
  intro b hb
  simp only [addRoundKey, List.mem_map, List.mem_range] at hb
  obtain ⟨i, _, rfl⟩ := hb
  exact xor_lt_256 _ _ (hs.getD_lt i) (Nat.mod_lt _ (by decide))

/-- AddRoundKey is injective on states. -/
theorem addRoundKey_inj (w : List Nat) (r : Nat) (s t : List Nat) (hs : IsState s)
    (ht : IsState t) (h : addRoundKey w r s = addRoundKey w r t) : s = t := by
  apply eq_of_getD_eq hs.1 ht.1
  intro i hi
  simp only [addRoundKey, List.map_inj_left, List.mem_range] at h
  exact Nat.xor_left_inj.mp (h i hi)

/-- SubBytes keeps states. -/
theorem subBytes_state (s : List Nat) (hs : IsState s) : IsState (s.map subByte) := by
  refine ⟨by simp [hs.1], ?_⟩
  intro b hb
  simp only [List.mem_map] at hb
  obtain ⟨a, _, rfl⟩ := hb
  exact Nat.mod_lt _ (by decide)

/-- SubBytes is injective on states. -/
theorem subBytes_inj (s t : List Nat) (hs : IsState s) (ht : IsState t)
    (h : s.map subByte = t.map subByte) : s = t := by
  have h2 := congrArg (List.map invSubByte) h
  rw [List.map_map, List.map_map] at h2
  have hid : ∀ u : List Nat, IsState u → u.map (invSubByte ∘ subByte) = u := by
    intro u hu
    have : u.map (invSubByte ∘ subByte) = u.map id :=
      List.map_congr_left (fun a ha => invSubByte_subByte a (hu.2 a ha))
    rw [this, List.map_id]
  rwa [hid s hs, hid t ht] at h2

/-- ShiftRows keeps states. -/
theorem shiftRows_state (s : List Nat) (hs : IsState s) : IsState (shiftRows s) := by
  refine ⟨by simp [shiftRows], ?_⟩
  intro b hb
  simp only [shiftRows, List.mem_map, List.mem_range] at hb
  obtain ⟨i, _, rfl⟩ := hb
  exact hs.getD_lt _

/-- ShiftRows is injective on states. -/
theorem shiftRows_inj (s t : List Nat) (hs : IsState s) (ht : IsState t)
    (h : shiftRows s = shiftRows t) : s = t := by
  apply eq_of_getD_eq hs.1 ht.1
  intro j hj
  simp only [shiftRows, List.map_inj_left, List.mem_range] at h
  have hperm : ∀ j, j < 16 → ∃ i, i < 16 ∧ i % 4 + 4 * ((i / 4 + i % 4) % 4) = j := by
    decide
  obtain ⟨i, hi, hij⟩ := hperm j hj
  rw [← hij]
  exact h i hi

set_option maxRecDepth 1000000 in
/-- The check on the columns with one non-zero byte succeeds. -/
theorem mixColumns4Unit_true : mixColumns4Unit = true := by decide!

/-- MixColumns keeps the bytes and the length of a list of whole columns. -/
theorem mixColumns_bytes (s : List Nat) (hs : ∀ b ∈ s, b < 256) :
    (∀ b ∈ mixColumns s, b < 256) ∧ (s.length % 4 = 0 → (mixColumns s).length = s.length) := by
  induction s using mixColumns.induct with
  | case1 a0 a1 a2 a3 rest ih =>
    have h0 : a0 < 256 := hs a0 (by simp)
    have h1 : a1 < 256 := hs a1 (by simp)
    have h2 : a2 < 256 := hs a2 (by simp)
    have h3 : a3 < 256 := hs a3 (by simp)
    have hrest : ∀ b ∈ rest, b < 256 := fun b hb => hs b (by simp [hb])
    obtain ⟨ihb, ihl⟩ := ih hrest
    have x0 := xtime_lt a0 h0
    have x1 := xtime_lt a1 h1
    have x2 := xtime_lt a2 h2
    have x3 := xtime_lt a3 h3
    constructor
    · intro b hb
      simp only [mixColumns, mixColumn, List.cons_append, List.nil_append, List.mem_cons] at hb
      rcases hb with h | h | h | h | h
      · rw [h]
        exact xor_lt_256 _ _ (xor_lt_256 _ _ (xor_lt_256 _ _ x0 (xor_lt_256 _ _ x1 h1)) h2) h3
      · rw [h]
        exact xor_lt_256 _ _ (xor_lt_256 _ _ (xor_lt_256 _ _ h0 x1) (xor_lt_256 _ _ x2 h2)) h3
      · rw [h]
        exact xor_lt_256 _ _ (xor_lt_256 _ _ (xor_lt_256 _ _ h0 h1) x2) (xor_lt_256 _ _ x3 h3)
      · rw [h]
        exact xor_lt_256 _ _ (xor_lt_256 _ _ (xor_lt_256 _ _ (xor_lt_256 _ _ x0 h0) h1) h2) x3
      · exact ihb b h
    · intro hl
      have hl2 : rest.length % 4 = 0 := by
        simp only [List.length_cons] at hl
        omega
      simp only [mixColumns, mixColumn, List.cons_append, List.nil_append, List.length_cons,
        ihl hl2]
  | case2 s hne =>
    have hnil : mixColumns s = [] := by
      unfold mixColumns
      split
      · rename_i a0 a1 a2 a3 rest
        exact absurd rfl (hne a0 a1 a2 a3 rest)
      · rfl
    rw [hnil]
    refine ⟨by simp, ?_⟩
    intro hl
    match s, hne, hl with
    | [], _, _ => rfl
    | [_], _, hl => simp at hl
    | [_, _], _, hl => simp at hl
    | [_, _, _], _, hl => simp at hl
    | a0 :: a1 :: a2 :: a3 :: rest, hne, _ => exact absurd rfl (hne a0 a1 a2 a3 rest)

/-- MixColumns keeps states. -/
theorem mixColumns_state (s : List Nat) (hs : IsState s) : IsState (mixColumns s) := by
  obtain ⟨hb, hl⟩ := mixColumns_bytes s hs.2
  exact ⟨by rw [hl (by rw [hs.1]), hs.1], hb⟩

/-- MixColumns is additive on columns. -/
theorem mixColumns_xor (u v : List Nat) (hu : IsColumn u) (hv : IsColumn v) :
    mixColumns (List.zipWith (fun a b => a ^^^ b) u v) =
      List.zipWith (fun a b => a ^^^ b) (mixColumns u) (mixColumns v) := by
  obtain ⟨hul, hub⟩ := hu
  obtain ⟨hvl, hvb⟩ := hv
  match u, hul, hub, v, hvl, hvb with
  | [a0, a1, a2, a3], _, hub, [b0, b1, b2, b3], _, hvb =>
    have ha0 : a0 < 256 := hub a0 (by simp)
    have ha1 : a1 < 256 := hub a1 (by simp)
    have ha2 : a2 < 256 := hub a2 (by simp)
    have ha3 : a3 < 256 := hub a3 (by simp)
    have hb0 : b0 < 256 := hvb b0 (by simp)
    have hb1 : b1 < 256 := hvb b1 (by simp)
    have hb2 : b2 < 256 := hvb b2 (by simp)
    have hb3 : b3 < 256 := hvb b3 (by simp)
    simp only [List.zipWith, mixColumns, mixColumn, List.cons_append, List.nil_append,
      List.append_nil, xtime_xor a0 b0 ha0 hb0, xtime_xor a1 b1 ha1 hb1,
      xtime_xor a2 b2 ha2 hb2, xtime_xor a3 b3 ha3 hb3, List.cons.injEq, and_true]
    refine ⟨?_, ?_, ?_, ?_⟩ <;> ac_rfl

/-- MixColumns keeps columns. -/
theorem mixColumns_column (c : List Nat) (hc : IsColumn c) : IsColumn (mixColumns c) := by
  obtain ⟨hb, hl⟩ := mixColumns_bytes c hc.2
  exact ⟨by rw [hl (by rw [hc.1]), hc.1], hb⟩

/-- The XOR of two columns is a column. -/
theorem zipWith_xor_column (u v : List Nat) (hu : IsColumn u) (hv : IsColumn v) :
    IsColumn (List.zipWith (fun a b => a ^^^ b) u v) := by
  refine ⟨by simp [hu.1, hv.1], ?_⟩
  intro b hb
  obtain ⟨hul, hub⟩ := hu
  obtain ⟨hvl, hvb⟩ := hv
  match u, hul, hub, v, hvl, hvb with
  | [a0, a1, a2, a3], _, hub, [b0, b1, b2, b3], _, hvb =>
    simp only [List.zipWith, List.mem_cons, List.mem_singleton, List.not_mem_nil,
      or_false] at hb
    rcases hb with h | h | h | h <;> rw [h] <;>
      exact xor_lt_256 _ _ (hub _ (by simp)) (hvb _ (by simp))

/-- MixColumns applied four times is additive on columns. -/
theorem mixColumns4_xor (u v : List Nat) (hu : IsColumn u) (hv : IsColumn v) :
    mixColumns4 (List.zipWith (fun a b => a ^^^ b) u v) =
      List.zipWith (fun a b => a ^^^ b) (mixColumns4 u) (mixColumns4 v) := by
  have hu1 := mixColumns_column u hu
  have hv1 := mixColumns_column v hv
  have hu2 := mixColumns_column _ hu1
  have hv2 := mixColumns_column _ hv1
  have hu3 := mixColumns_column _ hu2
  have hv3 := mixColumns_column _ hv2
  unfold mixColumns4
  rw [mixColumns_xor u v hu hv, mixColumns_xor _ _ hu1 hv1, mixColumns_xor _ _ hu2 hv2,
    mixColumns_xor _ _ hu3 hv3]

/-- MixColumns applied four times gives back every column. -/
theorem mixColumns4_column (a0 a1 a2 a3 : Nat) (h0 : a0 < 256) (h1 : a1 < 256)
    (h2 : a2 < 256) (h3 : a3 < 256) : mixColumns4 [a0, a1, a2, a3] = [a0, a1, a2, a3] := by
  have hunit := mixColumns4Unit_true
  simp only [mixColumns4Unit, List.all_eq_true, List.mem_range, Bool.and_eq_true,
    beq_iff_eq] at hunit
  have hz : (0 : Nat) < 256 := by decide
  have col : ∀ x y z w : Nat, x < 256 → y < 256 → z < 256 → w < 256 →
      IsColumn [x, y, z, w] := by
    intro x y z w hx hy hz hw
    refine ⟨rfl, ?_⟩
    intro b hb
    simp only [List.mem_cons, List.mem_singleton, List.not_mem_nil, or_false] at hb
    rcases hb with h | h | h | h <;> rw [h] <;> assumption
  have hsplit : [a0, a1, a2, a3] =
      List.zipWith (fun a b => a ^^^ b) [a0, 0, 0, 0]
        (List.zipWith (fun a b => a ^^^ b) [0, a1, 0, 0]
          (List.zipWith (fun a b => a ^^^ b) [0, 0, a2, 0] [0, 0, 0, a3])) := by
    simp [List.zipWith]
  have c23 : IsColumn (List.zipWith (fun a b => a ^^^ b) [0, 0, a2, 0] [0, 0, 0, a3]) :=
    zipWith_xor_column _ _ (col _ _ _ _ hz hz h2 hz) (col _ _ _ _ hz hz hz h3)
  have c123 := zipWith_xor_column _ _ (col _ _ _ _ hz h1 hz hz) c23
  conv_lhs => rw [hsplit]
  rw [mixColumns4_xor _ _ (col _ _ _ _ h0 hz hz hz) c123,
    mixColumns4_xor _ _ (col _ _ _ _ hz h1 hz hz) c23,
    mixColumns4_xor _ _ (col _ _ _ _ hz hz h2 hz) (col _ _ _ _ hz hz hz h3),
    (hunit a0 h0).1.1.1, (hunit a1 h1).1.1.2, (hunit a2 h2).1.2, (hunit a3 h3).2]
  exact hsplit.symm

/-- MixColumns on a column followed by more columns. -/
theorem mixColumns_cons4 (a0 a1 a2 a3 : Nat) (rest : List Nat) :
    mixColumns (a0 :: a1 :: a2 :: a3 :: rest) =
      mixColumns [a0, a1, a2, a3] ++ mixColumns rest := by
  simp [mixColumns]

/-- MixColumns of a column is a list of four elements. -/
theorem mixColumns_four (a0 a1 a2 a3 : Nat) :
    ∃ b0 b1 b2 b3, mixColumns [a0, a1, a2, a3] = [b0, b1, b2, b3] := by
  simp [mixColumns, mixColumn]

/-- MixColumns applied four times gives back every list of whole columns of
bytes. -/
theorem mixColumns4_id (n : Nat) : ∀ s : List Nat, s.length = 4 * n → (∀ b ∈ s, b < 256) →
    mixColumns4 s = s := by
  induction n with
  | zero =>
    intro s hl _
    have : s = [] := List.length_eq_zero.mp (by simpa using hl)
    subst this
    simp [mixColumns4, mixColumns]
  | succ n ih =>
    intro s hl hb
    match s, hl, hb with
    | a0 :: a1 :: a2 :: a3 :: rest, hl, hb =>
      have hrl : rest.length = 4 * n := by
        simp only [List.length_cons] at hl
        omega
      have hrb : ∀ b ∈ rest, b < 256 := fun b h => hb b (by simp [h])
      have hrest := ih rest hrl hrb
      have hcol := mixColumns4_column a0 a1 a2 a3 (hb a0 (by simp)) (hb a1 (by simp))
        (hb a2 (by simp)) (hb a3 (by simp))
      unfold mixColumns4 at hrest hcol ⊢
      obtain ⟨b0, b1, b2, b3, e1⟩ := mixColumns_four a0 a1 a2 a3
      obtain ⟨c0, c1, c2, c3, e2⟩ := mixColumns_four b0 b1 b2 b3
      obtain ⟨d0, d1, d2, d3, e3⟩ := mixColumns_four c0 c1 c2 c3
      rw [e1, e2, e3] at hcol
      rw [mixColumns_cons4, e1]
      show mixColumns (mixColumns (mixColumns (b0 :: b1 :: b2 :: b3 :: mixColumns rest))) = _
      rw [mixColumns_cons4, e2]
      show mixColumns (mixColumns (c0 :: c1 :: c2 :: c3 :: mixColumns (mixColumns rest))) = _
      rw [mixColumns_cons4, e3]
      show mixColumns (d0 :: d1 :: d2 :: d3 :: mixColumns (mixColumns (mixColumns rest))) = _
      rw [mixColumns_cons4, hcol, hrest]
      rfl

/-- MixColumns is injective on states. -/
theorem mixColumns_inj (s t : List Nat) (hs : IsState s) (ht : IsState t)
    (h : mixColumns s = mixColumns t) : s = t := by
  have h4 : mixColumns4 s = mixColumns4 t := by
    unfold mixColumns4
    rw [h]
  rwa [mixColumns4_id 4 s hs.1 hs.2, mixColumns4_id 4 t ht.1 ht.2] at h4

/-- The rounds of the cipher keep states. -/
theorem rounds_state (w : List Nat) (fuel : Nat) : ∀ (r : Nat) (s : List Nat), IsState s →
    IsState (rounds w fuel r s) := by
  induction fuel with
  | zero =>
    intro r s hs
    exact addRoundKey_state w r _ (shiftRows_state _ (subBytes_state s hs))
  | succ fuel ih =>
    intro r s hs
    exact ih _ _ (addRoundKey_state w r _
      (mixColumns_state _ (shiftRows_state _ (subBytes_state s hs))))

/-- The rounds of the cipher are injective on states. -/
theorem rounds_inj (w : List Nat) (fuel : Nat) : ∀ (r : Nat) (s t : List Nat), IsState s →
    IsState t → rounds w fuel r s = rounds w fuel r t → s = t := by
  induction fuel with
  | zero =>
    intro r s t hs ht h
    have hs1 := subBytes_state s hs
    have ht1 := subBytes_state t ht
    have hs2 := shiftRows_state _ hs1
    have ht2 := shiftRows_state _ ht1
    exact subBytes_inj s t hs ht
      (shiftRows_inj _ _ hs1 ht1 (addRoundKey_inj w r _ _ hs2 ht2 h))
  | succ fuel ih =>
    intro r s t hs ht h
    have hs1 := subBytes_state s hs
    have ht1 := subBytes_state t ht
    have hs2 := shiftRows_state _ hs1
    have ht2 := shiftRows_state _ ht1
    have hs3 := mixColumns_state _ hs2
    have ht3 := mixColumns_state _ ht2
    have hs4 := addRoundKey_state w r _ hs3
    have ht4 := addRoundKey_state w r _ ht3
    have h1 := ih (r + 1) _ _ hs4 ht4 h
    exact subBytes_inj s t hs ht
      (shiftRows_inj _ _ hs1 ht1 (mixColumns_inj _ _ hs2 ht2
        (addRoundKey_inj w r _ _ hs3 ht3 h1)))

/-- The bytes of a block are a state. -/
theorem blockBytes_state (x : Nat) : IsState (blockBytes x) := by
  refine ⟨by simp [blockBytes], ?_⟩
  intro b hb
  simp only [blockBytes, List.mem_map, List.mem_range] at hb
  obtain ⟨i, _, rfl⟩ := hb
  exact Nat.mod_lt _ (by decide)

/-- Numbers with the same `n` low base-256 digits are equal modulo 256^n. -/
theorem mod_pow_eq_of_digits (x y : Nat) (n : Nat) :
    (∀ k, k < n → x / 256 ^ k % 256 = y / 256 ^ k % 256) → x % 256 ^ n = y % 256 ^ n := by
  induction n with
  | zero => intro _; simp [Nat.mod_one]
  | succ n ih =>
    intro h
    rw [Nat.mod_pow_succ, Nat.mod_pow_succ, ih (fun k hk => h k (by omega)), h n (by omega)]

/-- Blocks with the same bytes are equal modulo 2^128. -/
theorem blockBytes_inj_mod (x y : Nat) (h : blockBytes x = blockBytes y) :
    x % 2 ^ 128 = y % 2 ^ 128 := by
  simp only [blockBytes, List.map_inj_left, List.mem_range] at h
  have h2 := mod_pow_eq_of_digits x y 16 (fun k hk => by
    have := h (15 - k) (by omega)
    rwa [show 15 - (15 - k) = k by omega] at this)
  have hp : (256 : Nat) ^ 16 = 2 ^ 128 := by norm_num
  rwa [hp] at h2

/-- Reading bytes most significant first is injective on byte lists of one
length, and on the starting value. -/
theorem foldl_bytes_inj : ∀ (l1 l2 : List Nat) (a1 a2 : Nat), l1.length = l2.length →
    (∀ b ∈ l1, b < 256) → (∀ b ∈ l2, b < 256) →
    l1.foldl (fun acc b => acc * 256 + b) a1 = l2.foldl (fun acc b => acc * 256 + b) a2 →
    a1 = a2 ∧ l1 = l2 := by
  intro l1
  induction l1 with
  | nil =>
    intro l2 a1 a2 hl _ _ h
    have : l2 = [] := List.length_eq_zero.mp hl.symm
    subst this
    exact ⟨h, rfl⟩
  | cons b1 t1 ih =>
    intro l2 a1 a2 hl h1 h2 h
    match l2, hl, h2, h with
    | b2 :: t2, hl, h2, h =>
      have hb1 : b1 < 256 := h1 b1 (by simp)
      have hb2 : b2 < 256 := h2 b2 (by simp)
      obtain ⟨ha, ht⟩ := ih t2 (a1 * 256 + b1) (a2 * 256 + b2) (by simpa using hl)
        (fun b hb => h1 b (by simp [hb])) (fun b hb => h2 b (by simp [hb])) h
      refine ⟨by omega, ?_⟩
      have : b1 = b2 := by omega
      rw [this, ht]

/-- Reading bytes most significant first stays below the bound of the length. -/
theorem foldl_bytes_lt : ∀ (l : List Nat) (a : Nat), (∀ b ∈ l, b < 256) →
    l.foldl (fun acc b => acc * 256 + b) a < (a + 1) * 256 ^ l.length := by
  intro l
  induction l with
  | nil => intro a _; simp
  | cons b t ih =>
    intro a h
    have hb : b < 256 := h b (by simp)
    have h1 := ih (a * 256 + b) (fun c hc => h c (by simp [hc]))
    have h2 : (a * 256 + b + 1) * 256 ^ t.length ≤ (a + 1) * 256 * 256 ^ t.length :=
      Nat.mul_le_mul_right _ (by omega)
    simp only [List.foldl, List.length_cons, Nat.pow_succ]
    calc List.foldl (fun acc b => acc * 256 + b) (a * 256 + b) t
        < (a * 256 + b + 1) * 256 ^ t.length := h1
      _ ≤ (a + 1) * 256 * 256 ^ t.length := h2
      _ = (a + 1) * (256 ^ t.length * 256) := by rw [Nat.mul_assoc, Nat.mul_comm 256]

/-- The block of a state is below 2^128. -/
theorem bytesBlock_lt (s : List Nat) (hs : IsState s) : bytesBlock s < 2 ^ 128 := by
  have h := foldl_bytes_lt s 0 hs.2
  rw [hs.1] at h
  exact h

/-- The AES block cipher gives blocks below 2^128. -/
theorem encryptBlock_lt (w : List Nat) (x : Nat) : encryptBlock w x < 2 ^ 128 :=
  bytesBlock_lt _ (rounds_state w _ _ _ (addRoundKey_state w 0 _ (blockBytes_state x)))

/-- The AES block cipher is injective on the blocks below 2^128, under every
key schedule. -/
theorem encryptBlock_inj (w : List Nat) (x y : Nat) (hx : x < 2 ^ 128) (hy : y < 2 ^ 128)
    (h : encryptBlock w x = encryptBlock w y) : x = y := by
  have sx := addRoundKey_state w 0 _ (blockBytes_state x)
  have sy := addRoundKey_state w 0 _ (blockBytes_state y)
  have rx := rounds_state w (w.length / 4 - 2) 1 _ sx
  have ry := rounds_state w (w.length / 4 - 2) 1 _ sy
  have h1 := (foldl_bytes_inj _ _ 0 0 (by rw [rx.1, ry.1]) rx.2 ry.2 h).2
  have h2 := rounds_inj w _ 1 _ _ sx sy h1
  have h3 := addRoundKey_inj w 0 _ _ (blockBytes_state x) (blockBytes_state y) h2
  have h4 := blockBytes_inj_mod x y h3
  rwa [Nat.mod_eq_of_lt hx, Nat.mod_eq_of_lt hy] at h4

/-- XOR commutes with the remainder modulo a power of two. -/
theorem xor_mod_two_pow (a b n : Nat) : (a ^^^ b) % 2 ^ n = a % 2 ^ n ^^^ b % 2 ^ n := by
  apply Nat.eq_of_testBit_eq
  intro i
  simp only [Nat.testBit_mod_two_pow, Nat.testBit_xor]
  by_cases h : i < n <;> simp [h]

/-- The big-endian number of a byte sequence, read on the values of the bytes. -/
theorem beNat_eq (bs : Bytes) :
    beNat bs = (bs.map Fin.val).foldl (fun acc b => acc * 256 + b) 0 := by
  rw [beNat, List.foldl_map]

/-- The values of bytes are below 256. -/
theorem map_val_lt (bs : Bytes) : ∀ b ∈ bs.map Fin.val, b < 256 := by
  intro b hb
  simp only [List.mem_map] at hb
  obtain ⟨a, _, rfl⟩ := hb
  exact a.isLt

/-- The big-endian number is injective on the byte sequences of one length. -/
theorem beNat_inj (n1 n2 : Bytes) (hl : n1.length = n2.length) (h : beNat n1 = beNat n2) :
    n1 = n2 := by
  rw [beNat_eq, beNat_eq] at h
  have h2 := (foldl_bytes_inj _ _ 0 0 (by simp [hl]) (map_val_lt n1) (map_val_lt n2) h).2
  exact List.map_injective_iff.mpr Fin.val_injective h2

/-- The big-endian number of 12 bytes is below 2^96. -/
theorem beNat_lt (n : Bytes) (hl : n.length = 12) : beNat n < 2 ^ 96 := by
  rw [beNat_eq]
  have h := foldl_bytes_lt _ 0 (map_val_lt n)
  rw [List.length_map, hl] at h
  exact h

/-- The bytes of a block as octets determine the bytes of the block. -/
theorem blockBytes_map_ofNat_inj (x y : Nat)
    (h : (blockBytes x).map (Fin.ofNat : Nat → Byte) = (blockBytes y).map Fin.ofNat) :
    blockBytes x = blockBytes y := by
  have h2 := congrArg (List.map Fin.val) h
  rw [List.map_map, List.map_map] at h2
  have hid : ∀ z : Nat, (blockBytes z).map (Fin.val ∘ (Fin.ofNat : Nat → Byte)) =
      blockBytes z := by
    intro z
    have : (blockBytes z).map (Fin.val ∘ (Fin.ofNat : Nat → Byte)) = (blockBytes z).map id := by
      apply List.map_congr_left
      intro a ha
      have hlt := (blockBytes_state z).2 a ha
      show a % 256 = a
      exact Nat.mod_eq_of_lt hlt
    rw [this, List.map_id]
  rwa [hid x, hid y] at h2

/-- The tag of AES-GCM determines the nonce of 12 bytes, for a given key, body
and additional data. -/
theorem gcmTag_nonce_inj (w : List Nat) (n1 n2 c aad : Bytes) (h1 : n1.length = 12)
    (h2 : n2.length = 12) (h : gcmTag w n1 c aad = gcmTag w n2 c aad) : n1 = n2 := by
  simp only [gcmTag] at h
  have hb := blockBytes_inj_mod _ _ (blockBytes_map_ofNat_inj _ _ h)
  rw [xor_mod_two_pow, xor_mod_two_pow,
    Nat.mod_eq_of_lt (encryptBlock_lt w (counterBlock n1 0)),
    Nat.mod_eq_of_lt (encryptBlock_lt w (counterBlock n2 0))] at hb
  have he := Nat.xor_right_inj.mp hb
  have l1 := beNat_lt n1 h1
  have l2 := beNat_lt n2 h2
  have hc := encryptBlock_inj w (counterBlock n1 0) (counterBlock n2 0)
    (by simp only [counterBlock]; omega) (by simp only [counterBlock]; omega) he
  apply beNat_inj n1 n2 (by rw [h1, h2])
  simp only [counterBlock] at hc
  omega

/-- AES-GCM accepts a ciphertext under at most one nonce of 12 bytes, for a
given key and additional data. -/
theorem aesgcm_nonce_unique (key n1 n2 c aad p1 p2 : Bytes) (h1 : n1.length = 12)
    (h2 : n2.length = 12) (ho1 : (aesgcm key).openFn n1 c aad = some p1)
    (ho2 : (aesgcm key).openFn n2 c aad = some p2) : n1 = n2 := by
  have tag_of : ∀ (n p : Bytes), aesgcmOpen key n c aad = some p →
      gcmTag (expandKey key) n (c.take (c.length - 16)) aad = c.drop (c.length - 16) := by
    intro n p ho
    unfold aesgcmOpen at ho
    simp only at ho
    split at ho
    · exact absurd ho (by simp)
    · split at ho
      · rename_i heq
        exact heq
      · exact absurd ho (by simp)
  exact gcmTag_nonce_inj (expandKey key) n1 n2 _ aad h1 h2
    ((tag_of n1 p1 ho1).trans (tag_of n2 p2 ho2).symm)

/-! ## Lemmas: GHASH under an invertible hash subkey -/

/-- The bit of a number is the bit of its remainder modulo 2^128, below 128. -/
theorem div_pow_mod_two_of_mod (x k : Nat) (hk : k < 128) :
    x % 2 ^ 128 / 2 ^ k % 2 = x / 2 ^ k % 2 := by
  have h1 := Nat.testBit_mod_two_pow x 128 k
  simp only [hk, decide_True, Bool.true_and] at h1
  rw [Nat.testBit_to_div_mod, Nat.testBit_to_div_mod] at h1
  have h2 : x % 2 ^ 128 / 2 ^ k % 2 < 2 := Nat.mod_lt _ (by decide)
  have h3 : x / 2 ^ k % 2 < 2 := Nat.mod_lt _ (by decide)
  by_cases h : x / 2 ^ k % 2 = 1
  · simp only [h, decide_True, decide_eq_true_eq] at h1
    rw [h1, h]
  · simp only [h, decide_False, decide_eq_false_iff_not] at h1
    omega

/-- The bits of an XOR: the bit is set when exactly one of the two is. -/
theorem div_pow_mod_two_xor (a b k : Nat) :
    ((a ^^^ b) / 2 ^ k % 2 = 1) ↔ ¬ ((a / 2 ^ k % 2 = 1) ↔ (b / 2 ^ k % 2 = 1)) := by
  have h := Nat.testBit_xor a b k
  rw [Nat.testBit_to_div_mod, Nat.testBit_to_div_mod, Nat.testBit_to_div_mod] at h
  by_cases ha : a / 2 ^ k % 2 = 1 <;> by_cases hb : b / 2 ^ k % 2 = 1 <;>
    simp [ha, hb] at h ⊢ <;> exact h

/-- The multiplication in GF(2^128) is additive in its first factor, step by
step. -/
theorem foldl_gfStep_xor (a b : Nat) : ∀ (l : List Nat) (z1 z2 v : Nat),
    (l.foldl (gfStep (a ^^^ b)) (z1 ^^^ z2, v)).1 =
        (l.foldl (gfStep a) (z1, v)).1 ^^^ (l.foldl (gfStep b) (z2, v)).1 ∧
      (l.foldl (gfStep (a ^^^ b)) (z1 ^^^ z2, v)).2 = (l.foldl (gfStep a) (z1, v)).2 ∧
      (l.foldl (gfStep b) (z2, v)).2 = (l.foldl (gfStep a) (z1, v)).2 := by
  intro l
  induction l with
  | nil => intro z1 z2 v; exact ⟨rfl, rfl, rfl⟩
  | cons i t ih =>
    intro z1 z2 v
    simp only [List.foldl]
    have hx := div_pow_mod_two_xor a b (127 - i)
    by_cases ha : a / 2 ^ (127 - i) % 2 = 1 <;> by_cases hb : b / 2 ^ (127 - i) % 2 = 1
    · have hab : ¬ ((a ^^^ b) / 2 ^ (127 - i) % 2 = 1) := by rw [hx]; simp [ha, hb]
      have e1 : gfStep (a ^^^ b) (z1 ^^^ z2, v) i =
          ((z1 ^^^ v) ^^^ (z2 ^^^ v), (gfStep a (z1, v) i).2) := by
        simp only [gfStep, hab, if_false, Prod.mk.injEq, and_true]
        rw [Nat.xor_assoc z1 v, ← Nat.xor_assoc v z2, Nat.xor_comm v z2, Nat.xor_assoc z2,
          Nat.xor_self, Nat.xor_zero]
      have e2 : gfStep a (z1, v) i = (z1 ^^^ v, (gfStep a (z1, v) i).2) := by
        simp only [gfStep, ha, if_true]
      have e3 : gfStep b (z2, v) i = (z2 ^^^ v, (gfStep a (z1, v) i).2) := by
        simp only [gfStep, hb, if_true]
      rw [e1, e2, e3]
      exact ih _ _ _
    · have hab : (a ^^^ b) / 2 ^ (127 - i) % 2 = 1 := by rw [hx]; simp [ha, hb]
      have e1 : gfStep (a ^^^ b) (z1 ^^^ z2, v) i =
          ((z1 ^^^ v) ^^^ z2, (gfStep a (z1, v) i).2) := by
        simp only [gfStep, hab, if_true, Prod.mk.injEq, and_true]
        rw [Nat.xor_assoc, Nat.xor_comm z2 v, Nat.xor_assoc]
      have e2 : gfStep a (z1, v) i = (z1 ^^^ v, (gfStep a (z1, v) i).2) := by
        simp only [gfStep, ha, if_true]
      have e3 : gfStep b (z2, v) i = (z2, (gfStep a (z1, v) i).2) := by
        simp only [gfStep, hb, if_false]
      rw [e1, e2, e3]
      exact ih _ _ _
    · have hab : (a ^^^ b) / 2 ^ (127 - i) % 2 = 1 := by rw [hx]; simp [ha, hb]
      have e1 : gfStep (a ^^^ b) (z1 ^^^ z2, v) i =
          (z1 ^^^ (z2 ^^^ v), (gfStep a (z1, v) i).2) := by
        simp only [gfStep, hab, if_true, Prod.mk.injEq, and_true]
        rw [Nat.xor_assoc]
      have e2 : gfStep a (z1, v) i = (z1, (gfStep a (z1, v) i).2) := by
        simp only [gfStep, ha, if_false]
      have e3 : gfStep b (z2, v) i = (z2 ^^^ v, (gfStep a (z1, v) i).2) := by
        simp only [gfStep, hb, if_true]
      rw [e1, e2, e3]
      exact ih _ _ _
    · have hab : ¬ ((a ^^^ b) / 2 ^ (127 - i) % 2 = 1) := by rw [hx]; simp [ha, hb]
      have e1 : gfStep (a ^^^ b) (z1 ^^^ z2, v) i =
          (z1 ^^^ z2, (gfStep a (z1, v) i).2) := by
        simp only [gfStep, hab, if_false]
      have e2 : gfStep a (z1, v) i = (z1, (gfStep a (z1, v) i).2) := by
        simp only [gfStep, ha, if_false]
      have e3 : gfStep b (z2, v) i = (z2, (gfStep a (z1, v) i).2) := by
        simp only [gfStep, hb, if_false]
      rw [e1, e2, e3]
      exact ih _ _ _

/-- The multiplication in GF(2^128) is additive in its first factor. -/
theorem gfMul_xor (a b y : Nat) : gfMul (a ^^^ b) y = gfMul a y ^^^ gfMul b y := by
  have h := (foldl_gfStep_xor a b (List.range 128) 0 0 y).1
  simpa [gfMul] using h

/-- The multiplication in GF(2^128) reads its first factor modulo 2^128, step
by step. -/
theorem foldl_gfStep_mod (x : Nat) : ∀ (l : List Nat) (zv : Nat × Nat),
    (∀ i ∈ l, i < 128) → l.foldl (gfStep (x % 2 ^ 128)) zv = l.foldl (gfStep x) zv := by
  intro l
  induction l with
  | nil => intro zv _; rfl
  | cons i t ih =>
    intro zv hl
    have hi : i < 128 := hl i (by simp)
    have hstep : gfStep (x % 2 ^ 128) zv i = gfStep x zv i := by
      simp only [gfStep, div_pow_mod_two_of_mod x (127 - i) (by omega)]
    simp only [List.foldl, hstep]
    exact ih _ (fun j hj => hl j (by simp [hj]))

/-- The multiplication in GF(2^128) reads its first factor modulo 2^128. -/
theorem gfMul_mod (x y : Nat) : gfMul (x % 2 ^ 128) y = gfMul x y := by
  simp only [gfMul]
  rw [foldl_gfStep_mod x (List.range 128) (0, y) (fun i hi => List.mem_range.mp hi)]

/-- Adding a power of two above a number is XOR with it. -/
theorem xor_two_pow_of_lt (y n : Nat) (hy : y < 2 ^ n) : y ^^^ 2 ^ n = 2 ^ n + y := by
  apply Nat.eq_of_testBit_eq
  intro j
  rw [Nat.testBit_xor]
  rcases Nat.lt_trichotomy j n with hj | hj | hj
  · rw [Nat.testBit_two_pow_add_gt hj, Nat.testBit_two_pow_of_ne (by omega)]
    simp
  · subst hj
    rw [Nat.testBit_two_pow_add_eq, Nat.testBit_two_pow_self, Nat.testBit_lt_two_pow hy]
    rfl
  · have h1 : y < 2 ^ j := lt_trans hy (Nat.pow_lt_pow_right (by decide) hj)
    have h2 : 2 ^ n + y < 2 ^ j := by
      have : 2 ^ (n + 1) ≤ 2 ^ j := Nat.pow_le_pow_right (by decide) hj
      rw [Nat.pow_succ] at this
      omega
    rw [Nat.testBit_lt_two_pow h1, Nat.testBit_lt_two_pow h2,
      Nat.testBit_two_pow_of_ne (by omega)]
    rfl

/-- The product of zero with a block is zero. -/
theorem gfMul_zero_left (y : Nat) : gfMul 0 y = 0 := by
  have h := gfMul_xor 0 0 y
  rw [Nat.xor_self] at h
  have h2 : gfMul 0 y ^^^ gfMul 0 y = 0 := Nat.xor_self _
  rw [h2] at h
  exact h

/-- An inverse on the powers of two is an inverse on every block. -/
theorem gfMul_inverse (h g : Nat) (hg : isHashInverse h g = true) :
    ∀ (n : Nat), n ≤ 128 → ∀ x, x < 2 ^ n → gfMul (gfMul x h) g = x := by
  intro n
  induction n with
  | zero =>
    intro _ x hx
    have : x = 0 := by simpa using hx
    subst this
    rw [gfMul_zero_left, gfMul_zero_left]
  | succ n ih =>
    intro hn x hx
    by_cases hlt : x < 2 ^ n
    · exact ih (by omega) x hlt
    · have hy : x - 2 ^ n < 2 ^ n := by
        rw [Nat.pow_succ] at hx
        omega
      have hx2 : x = (x - 2 ^ n) ^^^ 2 ^ n := by
        rw [xor_two_pow_of_lt _ _ hy]
        omega
      have hb : gfMul (gfMul (2 ^ n) h) g = 2 ^ n := by
        have := List.all_eq_true.mp hg n (List.mem_range.mpr (by omega))
        simpa using this
      rw [hx2, gfMul_xor, gfMul_xor, ih (by omega) _ hy, hb]

/-- Under an invertible hash subkey the multiplication by it is injective on
the blocks. -/
theorem gfMul_inj (h g : Nat) (hg : isHashInverse h g = true) (x y : Nat)
    (hxy : gfMul x h % 2 ^ 128 = gfMul y h % 2 ^ 128) : x % 2 ^ 128 = y % 2 ^ 128 := by
  have h1 : gfMul (gfMul x h) g = gfMul (gfMul y h) g := by
    rw [← gfMul_mod (gfMul x h), ← gfMul_mod (gfMul y h), hxy]
  rw [← gfMul_mod x h, ← gfMul_mod y h,
    gfMul_inverse h g hg 128 (le_refl _) _ (Nat.mod_lt _ (by decide)),
    gfMul_inverse h g hg 128 (le_refl _) _ (Nat.mod_lt _ (by decide))] at h1
  exact h1

/-- Under an invertible hash subkey the rest of GHASH keeps two different
states apart. -/
theorem ghash_suffix_inj (h g : Nat) (hg : isHashInverse h g = true) :
    ∀ (T : List Nat) (y1 y2 : Nat),
      T.foldl (fun y b => gfMul (y ^^^ b) h) y1 % 2 ^ 128 =
        T.foldl (fun y b => gfMul (y ^^^ b) h) y2 % 2 ^ 128 →
      y1 % 2 ^ 128 = y2 % 2 ^ 128 := by
  intro T
  induction T with
  | nil => intro y1 y2 hh; exact hh
  | cons b T ih =>
    intro y1 y2 hh
    simp only [List.foldl] at hh
    have h1 := gfMul_inj h g hg _ _ (ih _ _ hh)
    rw [xor_mod_two_pow, xor_mod_two_pow] at h1
    exact Nat.xor_left_inj.mp h1

/-- Under an invertible hash subkey GHASH tells apart two inputs that differ in
one block. -/
theorem ghash_block_inj (h g : Nat) (hg : isHashInverse h g = true) (P S : List Nat)
    (b1 b2 : Nat) (hb1 : b1 < 2 ^ 128) (hb2 : b2 < 2 ^ 128)
    (hh : ghash h (P ++ b1 :: S) % 2 ^ 128 = ghash h (P ++ b2 :: S) % 2 ^ 128) : b1 = b2 := by
  simp only [ghash, List.foldl_append, List.foldl] at hh
  have h1 := gfMul_inj h g hg _ _ (ghash_suffix_inj h g hg S _ _ hh)
  rw [xor_mod_two_pow, xor_mod_two_pow] at h1
  have h2 := Nat.xor_right_inj.mp h1
  rwa [Nat.mod_eq_of_lt hb1, Nat.mod_eq_of_lt hb2] at h2

/-- The blocks of a byte sequence up to block `k`, block `k` itself, and the
blocks after it. -/
theorem toBlocks_split : ∀ (k fuel : Nat) (c : Bytes), 16 * k < c.length →
    toBlocks (k + (fuel + 1)) c = toBlocks k (c.take (16 * k)) ++
      (beNat ((c.drop (16 * k)).take 16) * 256 ^ (16 - ((c.drop (16 * k)).take 16).length) ::
        toBlocks fuel (c.drop (16 * k + 16))) := by
  intro k
  induction k with
  | zero =>
    intro fuel c hc
    have hne : c ≠ [] := by
      intro h
      subst h
      simp at hc
    simp [toBlocks, hne]
  | succ k ih =>
    intro fuel c hc
    have hne : c ≠ [] := by
      intro h
      subst h
      simp at hc
    have hne2 : c.take (16 * (k + 1)) ≠ [] := by
      intro h
      have := congrArg List.length h
      simp only [List.length_take, List.length_nil] at this
      omega
    have e1 : k + 1 + (fuel + 1) = (k + (fuel + 1)) + 1 := by omega
    rw [e1, toBlocks, if_neg hne, ih fuel (c.drop 16) (by simp only [List.length_drop]; omega)]
    rw [toBlocks, if_neg hne2]
    have t1 : (c.take (16 * (k + 1))).take 16 = c.take 16 := by
      rw [List.take_take]
      congr 1
      omega
    have t2 : (c.take (16 * (k + 1))).drop 16 = (c.drop 16).take (16 * k) := by
      rw [List.drop_take]
      congr 1
    have t3 : (c.drop 16).drop (16 * k) = c.drop (16 * (k + 1)) := by
      rw [List.drop_drop]
      congr 1
      omega
    have t4 : (c.drop 16).drop (16 * k + 16) = c.drop (16 * (k + 1) + 16) := by
      rw [List.drop_drop]
      congr 1
      omega
    rw [t1, t2, t3, t4]
    rfl

/-- A padded block of at most 16 bytes is below 2^128. -/
theorem paddedBlock_lt (m : Bytes) (hm : m.length ≤ 16) :
    beNat m * 256 ^ (16 - m.length) < 2 ^ 128 := by
  have h := foldl_bytes_lt _ 0 (map_val_lt m)
  rw [← beNat_eq, List.length_map, Nat.zero_add, Nat.one_mul] at h
  have hp : (256 : Nat) ^ m.length * 256 ^ (16 - m.length) = 2 ^ 128 := by
    rw [← Nat.pow_add, show m.length + (16 - m.length) = 16 by omega]
    norm_num
  rw [← hp]
  exact Nat.mul_lt_mul_of_pos_right h (pow_pos (by decide) _)

/-- Two byte sequences of one length that agree outside block `k` and have the
same blocks are equal. -/
theorem eq_of_block_eq (k : Nat) (c1 c2 : Bytes) (hl : c1.length = c2.length)
    (ht : c1.take (16 * k) = c2.take (16 * k))
    (hd : c1.drop (16 * k + 16) = c2.drop (16 * k + 16))
    (hb : beNat ((c1.drop (16 * k)).take 16) * 256 ^ (16 - ((c1.drop (16 * k)).take 16).length) =
      beNat ((c2.drop (16 * k)).take 16) * 256 ^ (16 - ((c2.drop (16 * k)).take 16).length)) :
    c1 = c2 := by
  have hlen : ((c1.drop (16 * k)).take 16).length = ((c2.drop (16 * k)).take 16).length := by
    simp only [List.length_take, List.length_drop, hl]
  rw [hlen] at hb
  have hm : (c1.drop (16 * k)).take 16 = (c2.drop (16 * k)).take 16 :=
    beNat_inj _ _ hlen (Nat.eq_of_mul_eq_mul_right (pow_pos (by decide) _) hb)
  have hd2 : (c1.drop (16 * k)).drop 16 = (c2.drop (16 * k)).drop 16 := by
    rw [List.drop_drop, List.drop_drop]
    exact hd
  have hr : c1.drop (16 * k) = c2.drop (16 * k) := by
    rw [← List.take_append_drop 16 (c1.drop (16 * k)), hm, hd2, List.take_append_drop]
  rw [← List.take_append_drop (16 * k) c1, ht, hr, List.take_append_drop]

/-- Under an invertible hash subkey the blocks of two byte sequences that
agree outside block `k` are told apart by GHASH, whatever comes before and
after them. -/
theorem ghash_toBlocks_inj (h g : Nat) (hg : isHashInverse h g = true) (k : Nat)
    (c1 c2 : Bytes) (A B : List Nat) (hl : c1.length = c2.length)
    (ht : c1.take (16 * k) = c2.take (16 * k))
    (hd : c1.drop (16 * k + 16) = c2.drop (16 * k + 16))
    (hh : ghash h (A ++ toBlocks c1.length c1 ++ B) % 2 ^ 128 =
      ghash h (A ++ toBlocks c2.length c2 ++ B) % 2 ^ 128) : c1 = c2 := by
  by_cases hk : 16 * k < c1.length
  · have hk2 : 16 * k < c2.length := hl ▸ hk
    have e1 : c1.length = k + ((c1.length - k - 1) + 1) := by omega
    have s1 := toBlocks_split k (c1.length - k - 1) c1 hk
    have s2 := toBlocks_split k (c1.length - k - 1) c2 hk2
    rw [← e1] at s1 s2
    rw [← hl, s1, s2, ← ht, ← hd] at hh
    simp only [List.append_assoc, List.cons_append] at hh
    rw [← List.append_assoc, ← List.append_assoc A] at hh
    exact eq_of_block_eq k c1 c2 hl ht hd
      (ghash_block_inj h g hg _ _ _ _
        (paddedBlock_lt _ (by simp only [List.length_take]; omega))
        (paddedBlock_lt _ (by simp only [List.length_take]; omega)) hh)
  · have h1 : c1.take (16 * k) = c1 := List.take_of_length_le (by omega)
    have h2 : c2.take (16 * k) = c2 := List.take_of_length_le (by omega)
    rw [h1, h2] at ht
    exact ht

/-- The tag of AES-GCM determines the GHASH value modulo 2^128. -/
theorem gcmTag_ghash (w : List Nat) (nonce c1 a1 c2 a2 : Bytes)
    (h : gcmTag w nonce c1 a1 = gcmTag w nonce c2 a2) :
    ghash (encryptBlock w 0) (toBlocks a1.length a1 ++ toBlocks c1.length c1 ++
        [a1.length * 8 % 18446744073709551616 * 18446744073709551616 +
          c1.length * 8 % 18446744073709551616]) % 2 ^ 128 =
      ghash (encryptBlock w 0) (toBlocks a2.length a2 ++ toBlocks c2.length c2 ++
        [a2.length * 8 % 18446744073709551616 * 18446744073709551616 +
          c2.length * 8 % 18446744073709551616]) % 2 ^ 128 := by
  simp only [gcmTag] at h
  have hb := blockBytes_inj_mod _ _ (blockBytes_map_ofNat_inj _ _ h)
  rw [xor_mod_two_pow, xor_mod_two_pow] at hb
  exact Nat.xor_left_inj.mp hb

/-- Under an invertible hash subkey the tag of AES-GCM tells apart two bodies
of one length that differ within one block of 16 bytes. -/
theorem gcmTag_body_inj (w : List Nat) (g : Nat)
    (hg : isHashInverse (encryptBlock w 0) g = true) (k : Nat) (nonce c1 c2 aad : Bytes)
    (hl : c1.length = c2.length) (ht : c1.take (16 * k) = c2.take (16 * k))
    (hd : c1.drop (16 * k + 16) = c2.drop (16 * k + 16))
    (h : gcmTag w nonce c1 aad = gcmTag w nonce c2 aad) : c1 = c2 := by
  have h1 := gcmTag_ghash w nonce c1 aad c2 aad h
  apply ghash_toBlocks_inj _ g hg k c1 c2 (toBlocks aad.length aad)
    [aad.length * 8 % 18446744073709551616 * 18446744073709551616 +
      c2.length * 8 % 18446744073709551616] hl ht hd
  rw [hl] at h1 ⊢
  exact h1

/-- Under an invertible hash subkey the tag of AES-GCM tells apart two
additional data of one length that differ within one block of 16 bytes. -/
theorem gcmTag_aad_inj (w : List Nat) (g : Nat)
    (hg : isHashInverse (encryptBlock w 0) g = true) (k : Nat) (nonce c a1 a2 : Bytes)
    (hl : a1.length = a2.length) (ht : a1.take (16 * k) = a2.take (16 * k))
    (hd : a1.drop (16 * k + 16) = a2.drop (16 * k + 16))
    (h : gcmTag w nonce c a1 = gcmTag w nonce c a2) : a1 = a2 := by
  have h1 := gcmTag_ghash w nonce c a1 c a2 h
  apply ghash_toBlocks_inj _ g hg k a1 a2 [] (toBlocks c.length c ++
    [a2.length * 8 % 18446744073709551616 * 18446744073709551616 +
      c.length * 8 % 18446744073709551616]) hl ht hd
  rw [hl] at h1 ⊢
  simp only [List.nil_append, List.append_assoc] at h1 ⊢
  exact h1

/-- What AES-GCM opens carries the tag of its body. -/
theorem aesgcmOpen_tag (key nonce c t aad p : Bytes) (ht : t.length = gcmTagSize)
    (ho : aesgcmOpen key nonce (c ++ t) aad = some p) :
    gcmTag (expandKey key) nonce c aad = t := by
  unfold aesgcmOpen at ho
  simp only [List.length_append, ht, gcmTagSize, Nat.add_sub_cancel, List.take_left,
    List.drop_left] at ho
  split at ho
  · exact absurd ho (by simp)
  · split at ho
    · rename_i heq
      exact heq
    · exact absurd ho (by simp)

/-- What AES-GCM opens ends in the tag of what stands before. -/
theorem aesgcmOpen_tag_drop (key nonce c aad p : Bytes)
    (ho : aesgcmOpen key nonce c aad = some p) :
    gcmTag (expandKey key) nonce (c.take (c.length - 16)) aad = c.drop (c.length - 16) := by
  unfold aesgcmOpen at ho
  simp only at ho
  split at ho
  · exact absurd ho (by simp)
  · split at ho
    · rename_i heq
      exact heq
    · exact absurd ho (by simp)

/-- Under a key with an invertible hash subkey, AES-GCM accepts with one
nonce, tag and additional data at most one of the bodies of one length that
differ within one block of 16 bytes. -/
theorem aesgcm_body_block_unique (key nonce c1 c2 t aad p1 p2 : Bytes) (g k : Nat)
    (hg : isHashInverse (encryptBlock (expandKey key) 0) g = true)
    (hl : c1.length = c2.length) (htk : c1.take (16 * k) = c2.take (16 * k))
    (hd : c1.drop (16 * k + 16) = c2.drop (16 * k + 16)) (ht : t.length = gcmTagSize)
    (ho1 : (aesgcm key).openFn nonce (c1 ++ t) aad = some p1)
    (ho2 : (aesgcm key).openFn nonce (c2 ++ t) aad = some p2) : c1 = c2 :=
  gcmTag_body_inj (expandKey key) g hg k nonce c1 c2 aad hl htk hd
    ((aesgcmOpen_tag key nonce c1 t aad p1 ht ho1).trans
      (aesgcmOpen_tag key nonce c2 t aad p2 ht ho2).symm)

/-- Under a key with an invertible hash subkey, AES-GCM accepts a ciphertext
under one nonce with at most one of the additional data of one length that
differ within one block of 16 bytes. -/
theorem aesgcm_aad_block_unique (key nonce c a1 a2 p1 p2 : Bytes) (g k : Nat)
    (hg : isHashInverse (encryptBlock (expandKey key) 0) g = true)
    (hl : a1.length = a2.length) (htk : a1.take (16 * k) = a2.take (16 * k))
    (hd : a1.drop (16 * k + 16) = a2.drop (16 * k + 16))
    (ho1 : (aesgcm key).openFn nonce c a1 = some p1)
    (ho2 : (aesgcm key).openFn nonce c a2 = some p2) : a1 = a2 :=
  gcmTag_aad_inj (expandKey key) g hg k nonce _ a1 a2 hl htk hd
    ((aesgcmOpen_tag_drop key nonce c a1 p1 ho1).trans
      (aesgcmOpen_tag_drop key nonce c a2 p2 ho2).symm)

set_option maxRecDepth 100000 in
set_option maxHeartbeats 4000000 in
/-- The hash subkey of the key of 16 zero bytes is invertible. -/
theorem zeroKey_hash_inverse :
    isHashInverse (encryptBlock (expandKey zeroKey) 0) 13430172569977596086122814023348925342 =
      true := by decide!

/-! ## Lemmas: `strings.Split` -/

/-- `Split` never returns an empty list. -/
theorem Split_ne_nil (s : Str) : Split s ≠ [] := by
  cases s with
  | nil => simp [Split]
  | cons c cs =>
    unfold Split
    split
    · simp
    · split <;> simp

/-- The number of fields is the number of dots plus one. -/
theorem Split_length (s : Str) : (Split s).length = s.count dot + 1 := by
  induction s with
  | nil => simp [Split]
  | cons c cs ih =>
    unfold Split
    by_cases hc : c = dot
    · simp [hc, ih]
    · have hne : (c == dot) = false := by simpa using hc
      rw [if_neg hc, List.count_cons, hne]
      cases hs : Split cs with
      | nil => exact absurd hs (Split_ne_nil cs)
      | cons h t =>
        rw [hs] at ih
        simpa using ih

/-- A text without a dot is one field. -/
theorem Split_of_not_mem (a : Str) (h : dot ∉ a) : Split a = [a] := by
  induction a with
  | nil => simp [Split]
  | cons c cs ih =>
    have hc : c ≠ dot := fun e => h (by simp [e])
    have hcs : dot ∉ cs := fun e => h (by simp [e])
    unfold Split
    rw [if_neg hc, ih hcs]

/-- The first field ends at the first dot. -/
theorem Split_append_dot (a r : Str) (h : dot ∉ a) :
    Split (a ++ dot :: r) = a :: Split r := by
  induction a with
  | nil => simp [Split]
  | cons c cs ih =>
    have hc : c ≠ dot := fun e => h (by simp [e])
    have hcs : dot ∉ cs := fun e => h (by simp [e])
    show Split (c :: (cs ++ dot :: r)) = _
    rw [Split.eq_2, if_neg hc, ih hcs]

/-! ## Lemmas: base64 -/

/-- Every character of the alphabet decodes to its index. -/
theorem decodeMap_encodeChar (n : Nat) :
    decodeMap (encodeChar (n % 64)) = some (n % 64) := by
  have h : ∀ i : Fin 64, decodeMap (encodeChar i.val) = some i.val := by decide
  exact h ⟨n % 64, Nat.mod_lt _ (by decide)⟩

/-- The padding character is not in the alphabet. -/
theorem decodeMap_padChar : decodeMap padChar = none := by decide

/-- No character of the alphabet is a dot, a line break or the padding. -/
theorem encodeChar_plain (n : Nat) :
    encodeChar (n % 64) ≠ dot ∧ encodeChar (n % 64) ≠ LF ∧ encodeChar (n % 64) ≠ CR ∧
      encodeChar (n % 64) ≠ padChar := by
  have h : ∀ i : Fin 64, encodeChar i.val ≠ dot ∧ encodeChar i.val ≠ LF ∧
      encodeChar i.val ≠ CR ∧ encodeChar i.val ≠ padChar := by decide
  exact h ⟨n % 64, Nat.mod_lt _ (by decide)⟩

/-- An encoding holds no dot and no line break. -/
theorem EncodeToString_plain (b : Bytes) :
    ∀ c ∈ EncodeToString b, c ≠ dot ∧ c ≠ LF ∧ c ≠ CR := by
  induction b using EncodeToString.induct with
  | case1 => simp [EncodeToString]
  | case2 a =>
    intro c hc
    have hp : padChar ≠ dot ∧ padChar ≠ LF ∧ padChar ≠ CR := by decide
    simp only [EncodeToString, List.mem_cons, List.mem_singleton, List.not_mem_nil,
      or_false] at hc
    rcases hc with h | h | h | h <;> subst h
    · exact ⟨(encodeChar_plain _).1, (encodeChar_plain _).2.1, (encodeChar_plain _).2.2.1⟩
    · exact ⟨(encodeChar_plain _).1, (encodeChar_plain _).2.1, (encodeChar_plain _).2.2.1⟩
    · exact hp
    · exact hp
  | case3 a b =>
    intro c hc
    have hp : padChar ≠ dot ∧ padChar ≠ LF ∧ padChar ≠ CR := by decide
    simp only [EncodeToString, List.mem_cons, List.mem_singleton, List.not_mem_nil,
      or_false] at hc
    rcases hc with h | h | h | h <;> subst h
    · exact ⟨(encodeChar_plain _).1, (encodeChar_plain _).2.1, (encodeChar_plain _).2.2.1⟩
    · exact ⟨(encodeChar_plain _).1, (encodeChar_plain _).2.1, (encodeChar_plain _).2.2.1⟩
    · exact ⟨(encodeChar_plain _).1, (encodeChar_plain _).2.1, (encodeChar_plain _).2.2.1⟩
    · exact hp
  | case4 a b c rest ih =>
    intro x hx
    simp only [EncodeToString, List.mem_cons] at hx
    rcases hx with h | h | h | h | h
    · subst h; exact ⟨(encodeChar_plain _).1, (encodeChar_plain _).2.1, (encodeChar_plain _).2.2.1⟩
    · subst h; exact ⟨(encodeChar_plain _).1, (encodeChar_plain _).2.1, (encodeChar_plain _).2.2.1⟩
    · subst h; exact ⟨(encodeChar_plain _).1, (encodeChar_plain _).2.1, (encodeChar_plain _).2.2.1⟩
    · subst h; exact ⟨(encodeChar_plain _).1, (encodeChar_plain _).2.1, (encodeChar_plain _).2.2.1⟩
    · exact ih x h

/-- An encoding holds no dot. -/
theorem dot_not_mem_EncodeToString (b : Bytes) : dot ∉ EncodeToString b :=
  fun h => (EncodeToString_plain b dot h).1 rfl

/-- Only the empty byte sequence has the empty encoding. -/
theorem EncodeToString_eq_nil (b : Bytes) : EncodeToString b = [] ↔ b = [] := by
  cases b with
  | nil => simp [EncodeToString]
  | cons a t =>
    cases t with
    | nil => simp [EncodeToString]
    | cons b t =>
      cases t with
      | nil => simp [EncodeToString]
      | cons c t => simp [EncodeToString]

/-- The quantum loop inverts the encoder. -/
theorem decodeQuanta_EncodeToString (b : Bytes) :
    decodeQuanta (EncodeToString b) = some b := by
  induction b using EncodeToString.induct with
  | case1 => simp [EncodeToString, decodeQuanta]
  | case2 a =>
    have ha := a.isLt
    simp only [EncodeToString, decodeQuanta, decodeMap_encodeChar, decodeMap_padChar,
      and_self, if_true, Option.some.injEq, List.cons.injEq, and_true]
    apply Fin.ext
    simp only [Fin.ofNat, Fin.val_mk]
    omega
  | case3 a b =>
    have ha := a.isLt
    have hb := b.isLt
    simp only [EncodeToString, decodeQuanta, decodeMap_encodeChar, decodeMap_padChar,
      and_self, if_true, Option.some.injEq, List.cons.injEq, and_true]
    constructor <;> (apply Fin.ext; simp only [Fin.ofNat, Fin.val_mk]; omega)
  | case4 a b c rest ih =>
    have ha := a.isLt
    have hb := b.isLt
    have hc := c.isLt
    simp only [EncodeToString, decodeQuanta, decodeMap_encodeChar, ih,
      Option.some.injEq, List.cons.injEq, and_true]
    refine ⟨?_, ?_, ?_⟩ <;> (apply Fin.ext; simp only [Fin.ofNat, Fin.val_mk]; omega)

/-- The decoder inverts the encoder. -/
theorem DecodeString_EncodeToString (b : Bytes) :
    DecodeString (EncodeToString b) = some b := by
  unfold DecodeString
  have h : (EncodeToString b).filter (fun c => !(c = LF || c = CR)) = EncodeToString b := by
    apply List.filter_eq_self.mpr
    intro c hc
    have := EncodeToString_plain b c hc
    simp [this.2.1, this.2.2]
  rw [h, decodeQuanta_EncodeToString]


/-! ## Lemmas: the codec -/

/-- The fields of what `encode` writes: the three encodings, or the last two
when the body is empty. -/
theorem Split_encode (data iv tag : Bytes) :
    Split (encode data iv tag) =
      if data = [] then [EncodeToString iv, EncodeToString tag]
      else [EncodeToString data, EncodeToString iv, EncodeToString tag] := by
  have hiv := dot_not_mem_EncodeToString iv
  have htag := dot_not_mem_EncodeToString tag
  have hdata := dot_not_mem_EncodeToString data
  cases hd : EncodeToString data with
  | nil =>
    have h1 : encode data iv tag = EncodeToString iv ++ dot :: EncodeToString tag := by
      simp [encode, Join, hd, TrimPrefix]
    rw [h1, if_pos ((EncodeToString_eq_nil data).mp hd), Split_append_dot _ _ hiv,
      Split_of_not_mem _ htag]
  | cons c cs =>
    have hc : c ≠ dot := by
      intro e
      apply hdata
      rw [hd, e]
      simp
    have hne : data ≠ [] := by
      intro e
      rw [(EncodeToString_eq_nil data).mpr e] at hd
      exact absurd hd (by simp)
    have h1 : encode data iv tag =
        EncodeToString data ++ dot :: (EncodeToString iv ++ dot :: EncodeToString tag) := by
      simp [encode, Join, hd, TrimPrefix, hc]
    rw [h1, if_neg hne, Split_append_dot _ _ hdata, Split_append_dot _ _ hiv,
      Split_of_not_mem _ htag, hd]

/-- The chunks `parse` sees in what `encode` writes are the three encodings. -/
theorem expandedChunks_encode (data iv tag : Bytes) :
    expandedChunks (encode data iv tag) =
      [EncodeToString data, EncodeToString iv, EncodeToString tag] := by
  unfold expandedChunks
  rw [Split_encode]
  by_cases hd : data = []
  · simp [hd, EncodeToString]
  · simp [hd]

/-- The function `parse` inverts `encode` on a nonce of 12 bytes. -/
theorem parse_encode (data iv tag : Bytes) (hiv : iv.length = gcmNonceSize) :
    parse (encode data iv tag) = .ok ⟨data, iv, tag⟩ := by
  simp [parse, decodeChunks, expandedChunks_encode, DecodeString_EncodeToString, hiv]

/-- The empty text is not accepted by `parse`. -/
theorem parse_nil : parse [] = .error (.unrecognizedFormat []) := by decide

/-- What `encode` writes for a nonce of 12 bytes is not the empty string. -/
theorem encode_ne_nil (data iv tag : Bytes) (hiv : iv.length = gcmNonceSize) :
    encode data iv tag ≠ [] := by
  intro h
  have h1 := parse_encode data iv tag hiv
  rw [h, parse_nil] at h1
  exact absurd h1 (by simp)

/-- What `parse` returns has a nonce of 12 bytes and comes from a text of three
chunks that decode to its parts. -/
theorem parse_ok (value : Str) (ev : encryptedValue) (h : parse value = .ok ev) :
    ev.iv.length = gcmNonceSize ∧ ∃ c0 c1 c2, expandedChunks value = [c0, c1, c2] ∧
      DecodeString c0 = some ev.data ∧ DecodeString c1 = some ev.iv ∧
      DecodeString c2 = some ev.tag := by
  unfold parse at h
  split at h
  · rename_i c0 c1 c2 hch
    unfold decodeChunks at h
    split at h
    · exact absurd h (by simp)
    · rename_i data hdata
      split at h
      · exact absurd h (by simp)
      · rename_i iv hivd
        split at h
        · exact absurd h (by simp)
        · rename_i hlen
          split at h
          · exact absurd h (by simp)
          · rename_i tag htag
            injection h with h
            subst h
            exact ⟨by simpa using hlen, c0, c1, c2, hch, hdata, hivd, htag⟩
  · exact absurd h (by simp)

/-- The chunks are three exactly when the text has two or three fields. -/
theorem expandedChunks_length (value : Str) :
    (expandedChunks value).length = 3 ↔
      ((Split value).length = 2 ∨ (Split value).length = 3) := by
  unfold expandedChunks
  by_cases h : (Split value).length = 2
  · simp [h]
  · simp [h]

/-- On three chunks `parse` is the decoding of the chunks in their order. -/
theorem parse_of_chunks (value c0 c1 c2 : Str) (hch : expandedChunks value = [c0, c1, c2]) :
    parse value = decodeChunks c0 c1 c2 := by
  simp only [parse, hch]

/-- On another number of chunks `parse` fails with `Unrecognized format`. -/
theorem parse_malformed (value : Str) (h : (expandedChunks value).length ≠ 3) :
    parse value = .error (.unrecognizedFormat value) := by
  unfold parse
  split
  · rename_i c0 c1 c2 hch
    rw [hch] at h
    exact absurd rfl h
  · rfl

/-- A list of three elements. -/
theorem list_of_length_three (l : List Str) (h : l.length = 3) :
    ∃ c0 c1 c2, l = [c0, c1, c2] := by
  match l, h with
  | [c0, c1, c2], _ => exact ⟨c0, c1, c2, rfl⟩

/-- On three chunks `parse` does not fail with `Unrecognized format`. -/
theorem parse_of_chunks_format (value c0 c1 c2 : Str)
    (hch : expandedChunks value = [c0, c1, c2]) (v : Str) :
    parse value ≠ .error (.unrecognizedFormat v) := by
  rw [parse_of_chunks value c0 c1 c2 hch, decodeChunks]
  cases DecodeString c0 with
  | none => simp
  | some data =>
    cases DecodeString c1 with
    | none => simp
    | some iv =>
      by_cases hl : iv.length = gcmNonceSize
      · cases DecodeString c2 with
        | none => simp [hl]
        | some tag => simp [hl]
      · simp [hl]

/-- A text that `parse` accepts is not empty. -/
theorem parse_ok_ne_nil (value : Str) (ev : encryptedValue) (h : parse value = .ok ev) :
    value ≠ [] := by
  intro e
  rw [e, parse_nil] at h
  exact absurd h (by simp)

/-- A list of two elements. -/
theorem list_of_length_two (l : List Str) (h : l.length = 2) : ∃ c1 c2, l = [c1, c2] := by
  match l, h with
  | [c1, c2], _ => exact ⟨c1, c2, rfl⟩

/-- The fields of a text with a dot in front: an empty field, then the fields
of the text. -/
theorem Split_dot_cons (s : Str) : Split (dot :: s) = [] :: Split s := by
  rw [Split.eq_2, if_pos rfl]

/-! ## Lemmas: `Encrypt` and `Decrypt` step by step -/

/-- A key of 16, 24 or 32 bytes gives a block. -/
theorem NewCipher_ok (key : Bytes)
    (hkey : key.length = 16 ∨ key.length = 24 ∨ key.length = 32) :
    NewCipher key = .ok ⟨key⟩ := by
  simp [NewCipher, hkey]

/-- A key of another length gives `KeySizeError`. -/
theorem NewCipher_error (key : Bytes)
    (hkey : ¬ (key.length = 16 ∨ key.length = 24 ∨ key.length = 32)) :
    NewCipher key = .error key.length := by
  simp only [NewCipher, if_neg hkey]

/-- GCM is always made over an AES block: its block size is 16. -/
theorem NewGCM_ok (lib : Primitive) (c : Block) : NewGCM lib c = some (lib c.key) := by
  simp [NewGCM, Block.BlockSize, aesBlockSize, gcmBlockSize]

/-- With a nonce of 12 bytes, sealing and encoding returns the encoding of the
sealed bytes cut 16 bytes before their end. -/
theorem sealEncode_returns (gcm : AEAD) (iv : Bytes) (plaintext : Str) (aad : Bytes)
    (hiv : iv.length = gcmNonceSize) :
    sealEncode gcm iv plaintext aad =
      .returns (encode ((gcm.sealFn iv plaintext aad).take plaintext.length) iv
        ((gcm.sealFn iv plaintext aad).drop plaintext.length), none) := by
  have hlen := gcm.overhead iv plaintext aad hiv
  have hsub : (gcm.sealFn iv plaintext aad).length - aesBlockSize = plaintext.length := by
    rw [hlen]; simp [gcmTagSize, aesBlockSize]
  have hlt : ¬ (gcm.sealFn iv plaintext aad).length < aesBlockSize := by
    rw [hlen]; simp [gcmTagSize, aesBlockSize]
  have hiv2 : ¬ iv.length ≠ gcmStandardNonceSize := by
    simpa [gcmStandardNonceSize, gcmNonceSize] using hiv
  simp only [sealEncode, AEAD.Seal, if_neg hiv2, if_neg hlt, hsub]

/-- Past the shortcut and with a valid key, `Encrypt` is: choose the IV, then
seal and encode. -/
theorem Encrypt_eq (lib : Primitive) (rand : RandRead) (plaintext : Str) (key aad : Bytes)
    (stash : Iface) (hns : ¬ (plaintext = [] ∧ aad = []))
    (hkey : key.length = 16 ∨ key.length = 24 ∨ key.length = 32) :
    Encrypt lib rand plaintext key aad stash =
      match chooseIV rand plaintext stash with
      | .error err => .returns ([], some err)
      | .ok iv => sealEncode (lib key) iv plaintext aad := by
  have hns2 : ¬ (plaintext = [] ∧ aad.length = 0) := by
    simpa [List.length_eq_zero] using hns
  simp only [Encrypt, if_neg hns2, NewCipher_ok key hkey, NewGCM_ok]

/-- Past the shortcut, `Decrypt` of a text that `parse` accepts under a valid
key is the opening of body and tag put together. -/
theorem Decrypt_eq (lib : Primitive) (ciphertext : Str) (key aad : Bytes)
    (ev : encryptedValue) (hns : ¬ (ciphertext = [] ∧ aad = []))
    (hparse : parse ciphertext = .ok ev)
    (hkey : key.length = 16 ∨ key.length = 24 ∨ key.length = 32) :
    Decrypt lib ciphertext key aad =
      match (lib key).openFn ev.iv (ev.data ++ ev.tag) aad with
      | none => .returns ([], .nil, some .couldNotDecrypt)
      | some decryptedBytes =>
        .returns (decryptedBytes, .stashed ⟨ev.iv, decryptedBytes⟩, none) := by
  have hns2 : ¬ (ciphertext = [] ∧ aad.length = 0) := by
    simpa [List.length_eq_zero] using hns
  have hiv : ¬ ev.iv.length ≠ gcmStandardNonceSize := by
    simpa [gcmStandardNonceSize, gcmNonceSize] using (parse_ok ciphertext ev hparse).1
  simp only [Decrypt, if_neg hns2, hparse, NewCipher_ok key hkey, NewGCM_ok, AEAD.Open,
    if_neg hiv]
  cases (lib key).openFn ev.iv (ev.data ++ ev.tag) aad <;> rfl

/-- A successful `Decrypt` is either the shortcut, or the opening of a parsed
text under a valid key, whose nonce and plaintext make the stash. -/
theorem Decrypt_success (lib : Primitive) (ciphertext : Str) (key aad : Bytes)
    (plaintext : Str) (stash : Iface)
    (h : Decrypt lib ciphertext key aad = .returns (plaintext, stash, none)) :
    (ciphertext = [] ∧ aad = [] ∧ plaintext = [] ∧ stash = .nil) ∨
    (¬ (ciphertext = [] ∧ aad = []) ∧
      (key.length = 16 ∨ key.length = 24 ∨ key.length = 32) ∧
      ∃ ev, parse ciphertext = .ok ev ∧
        (lib key).openFn ev.iv (ev.data ++ ev.tag) aad = some plaintext ∧
        stash = .stashed ⟨ev.iv, plaintext⟩) := by
  by_cases hs : ciphertext = [] ∧ aad = []
  · left
    have hs2 : ciphertext = [] ∧ aad.length = 0 := by simpa [List.length_eq_zero] using hs
    simp only [Decrypt, if_pos hs2, Outcome.returns.injEq, Prod.mk.injEq] at h
    exact ⟨hs.1, hs.2, h.1.symm, h.2.1.symm⟩
  · right
    refine ⟨hs, ?_⟩
    have hs2 : ¬ (ciphertext = [] ∧ aad.length = 0) := by
      simpa [List.length_eq_zero] using hs
    cases hp : parse ciphertext with
    | error e =>
      simp [Decrypt, hs, hp] at h
    | ok ev =>
      by_cases hkey : key.length = 16 ∨ key.length = 24 ∨ key.length = 32
      · refine ⟨hkey, ev, rfl, ?_⟩
        rw [Decrypt_eq lib ciphertext key aad ev hs hp hkey] at h
        cases ho : (lib key).openFn ev.iv (ev.data ++ ev.tag) aad with
        | none => simp [ho] at h
        | some d =>
          simp only [ho, Outcome.returns.injEq, Prod.mk.injEq] at h
          rw [← h.1, ← h.2.1]
          exact ⟨rfl, rfl⟩
      · simp [Decrypt, hs, hp, NewCipher_error key hkey] at h

/-- The IV is the stash's when the stash holds the same plaintext. -/
theorem chooseIV_reuse (rand : RandRead) (sv : stashedValue) :
    chooseIV rand sv.plaintext (.stashed sv) = .ok sv.iv := by
  simp [chooseIV, Iface.assertStashedValue]

/-- The IV is read from the random source when the stash is no `stashedValue`
of the same plaintext; the stash then plays no part. -/
theorem chooseIV_fresh (rand : RandRead) (plaintext : Str) (stash : Iface)
    (h : ∀ sv, stash = .stashed sv → sv.plaintext ≠ plaintext) :
    chooseIV rand plaintext stash =
      match rand with
      | none => .error .couldNotGenerateRandom
      | some iv => .ok iv.val := by
  cases stash with
  | nil => cases rand <;> simp [chooseIV, Iface.assertStashedValue]
  | other v => cases rand <;> simp [chooseIV, Iface.assertStashedValue]
  | stashed sv =>
    have := h sv rfl
    cases rand <;> simp [chooseIV, Iface.assertStashedValue, this]

/-- With the stash that `Decrypt` made of a text in the form `encode` writes,
with a tag of 16 bytes, `Encrypt` of the same plaintext and additional data
writes that text again, if sealing gives back what was opened. -/
theorem Encrypt_stash_canonical (lib : Primitive) (rand : RandRead) (C : Str)
    (key aad : Bytes) (P : Str) (ev : encryptedValue)
    (hkey : key.length = 16 ∨ key.length = 24 ∨ key.length = 32)
    (hparse : parse C = .ok ev) (hcanon : C = encode ev.data ev.iv ev.tag)
    (htag : ev.tag.length = aesBlockSize) (hne : ¬ (P = [] ∧ aad = []))
    (hseal : (lib key).sealFn ev.iv P aad = ev.data ++ ev.tag) :
    Encrypt lib rand P key aad (.stashed ⟨ev.iv, P⟩) = .returns (C, none) := by
  have hiv := (parse_ok C ev hparse).1
  have h1 := chooseIV_reuse rand ⟨ev.iv, P⟩
  simp only at h1
  rw [Encrypt_eq lib rand P key aad _ hne hkey, h1]
  simp only
  rw [sealEncode_returns _ _ _ _ hiv, hseal]
  have hlen := (lib key).overhead ev.iv P aad hiv
  rw [hseal, List.length_append, htag] at hlen
  have hP : P.length = ev.data.length := by
    simp only [aesBlockSize, gcmTagSize] at hlen
    omega
  rw [hP, List.take_left, List.drop_left, ← hcanon]

/-- With a key of a wrong length `Decrypt` of a text that `parse` accepts
returns `KeySizeError`, whatever the primitive is. -/
theorem Decrypt_key_error (lib : Primitive) (ciphertext : Str) (key aad : Bytes)
    (ev : encryptedValue) (hparse : parse ciphertext = .ok ev)
    (hkey : ¬ (key.length = 16 ∨ key.length = 24 ∨ key.length = 32)) :
    Decrypt lib ciphertext key aad = .returns ([], .nil, some (.keySizeError key.length)) := by
  have hne := parse_ok_ne_nil ciphertext ev hparse
  have hns : ¬ (ciphertext = [] ∧ aad.length = 0) := fun h => hne h.1
  simp only [Decrypt, if_neg hns, hparse, NewCipher_error key hkey]

/-- When `Decrypt` returns an error, its stash is nil and its plaintext empty. -/
theorem Decrypt_error (lib : Primitive) (ciphertext : Str) (key aad : Bytes) (p : Str)
    (s : Iface) (e : Err) (h : Decrypt lib ciphertext key aad = .returns (p, s, some e)) :
    p = [] ∧ s = .nil := by
  unfold Decrypt at h
  split at h
  · simp at h
  · split at h
    · simp only [Outcome.returns.injEq, Prod.mk.injEq] at h
      exact ⟨h.1.symm, h.2.1.symm⟩
    · split at h
      · simp only [Outcome.returns.injEq, Prod.mk.injEq] at h
        exact ⟨h.1.symm, h.2.1.symm⟩
      · split at h
        · simp only [Outcome.returns.injEq, Prod.mk.injEq] at h
          exact ⟨h.1.symm, h.2.1.symm⟩
        · simp only at h
          split at h
          · exact absurd h (by simp)
          · simp only [Outcome.returns.injEq, Prod.mk.injEq] at h
            exact ⟨h.1.symm, h.2.1.symm⟩
          · simp at h

/-- Past the shortcut and with a valid key, `Encrypt` with a working random
source never returns an error: it seals and encodes. -/
theorem Encrypt_working_rand (lib : Primitive)
    (nonce : { iv : Bytes // iv.length = gcmNonceSize }) (plaintext : Str) (key aad : Bytes)
    (stash : Iface) (hns : ¬ (plaintext = [] ∧ aad = []))
    (hkey : key.length = 16 ∨ key.length = 24 ∨ key.length = 32) :
    ∃ iv, chooseIV (some nonce) plaintext stash = .ok iv ∧
      Encrypt lib (some nonce) plaintext key aad stash =
        sealEncode (lib key) iv plaintext aad := by
  by_cases hex : ∃ sv, stash = .stashed sv ∧ sv.plaintext = plaintext
  · obtain ⟨sv, hs, hp⟩ := hex
    have h1 := chooseIV_reuse (some nonce) sv
    rw [hp, ← hs] at h1
    exact ⟨sv.iv, h1, by rw [Encrypt_eq lib _ plaintext key aad stash hns hkey, h1]⟩
  · have hst : ∀ sv, stash = .stashed sv → sv.plaintext ≠ plaintext :=
      fun sv hs hp => hex ⟨sv, hs, hp⟩
    have h1 := chooseIV_fresh (some nonce) plaintext stash hst
    simp only at h1
    exact ⟨nonce.val, h1, by rw [Encrypt_eq lib _ plaintext key aad stash hns hkey, h1]⟩

/-- Sealing and encoding never returns an error. -/
theorem sealEncode_no_error (gcm : AEAD) (iv : Bytes) (plaintext : Str) (aad : Bytes)
    (c : Str) (e : Err) : sealEncode gcm iv plaintext aad ≠ .returns (c, some e) := by
  intro h
  unfold sealEncode at h
  split at h
  · exact absurd h (by simp)
  · split at h
    · exact absurd h (by simp)
    · simp at h

/-- Past the shortcut, with a valid key, no stash and the nonce read from the
random source, `Encrypt` returns the encoding of the sealed bytes cut 16 bytes
before their end. -/
theorem Encrypt_fresh (lib : Primitive) (nonce : { iv : Bytes // iv.length = gcmNonceSize })
    (plaintext : Str) (key aad : Bytes) (hns : ¬ (plaintext = [] ∧ aad = []))
    (hkey : key.length = 16 ∨ key.length = 24 ∨ key.length = 32) :
    Encrypt lib (some nonce) plaintext key aad .nil =
      .returns (encode (((lib key).sealFn nonce.val plaintext aad).take plaintext.length)
        nonce.val (((lib key).sealFn nonce.val plaintext aad).drop plaintext.length),
        none) := by
  have hch : chooseIV (some nonce) plaintext .nil = .ok nonce.val := by
    simp [chooseIV, Iface.assertStashedValue]
  rw [Encrypt_eq lib _ plaintext key aad _ hns hkey, hch]
  simp only
  rw [sealEncode_returns _ _ _ _ nonce.property]

/-- A successful `Encrypt` past the shortcut had a valid key and a nonce of 12
bytes, and returns the encoding of the sealed bytes cut 16 bytes before their
end. -/
theorem Encrypt_success (lib : Primitive) (rand : RandRead) (plaintext : Str)
    (key aad : Bytes) (stash : Iface) (C : Str) (hns : ¬ (plaintext = [] ∧ aad = []))
    (h : Encrypt lib rand plaintext key aad stash = .returns (C, none)) :
    (key.length = 16 ∨ key.length = 24 ∨ key.length = 32) ∧
    ∃ iv, chooseIV rand plaintext stash = .ok iv ∧ iv.length = gcmNonceSize ∧
      C = encode (((lib key).sealFn iv plaintext aad).take plaintext.length) iv
        (((lib key).sealFn iv plaintext aad).drop plaintext.length) := by
  have hns2 : ¬ (plaintext = [] ∧ aad.length = 0) := by
    simpa [List.length_eq_zero] using hns
  by_cases hkey : key.length = 16 ∨ key.length = 24 ∨ key.length = 32
  · refine ⟨hkey, ?_⟩
    rw [Encrypt_eq lib rand plaintext key aad stash hns hkey] at h
    cases hch : chooseIV rand plaintext stash with
    | error e => rw [hch] at h; simp at h
    | ok iv =>
      rw [hch] at h
      simp only at h
      by_cases hiv : iv.length = gcmNonceSize
      · rw [sealEncode_returns _ _ _ _ hiv] at h
        simp only [Outcome.returns.injEq, Prod.mk.injEq, and_true] at h
        exact ⟨iv, rfl, hiv, h.symm⟩
      · have hiv2 : iv.length ≠ gcmStandardNonceSize := by
          simpa [gcmStandardNonceSize, gcmNonceSize] using hiv
        simp [sealEncode, AEAD.Seal, hiv2] at h
  · simp [Encrypt, hns, NewCipher_error key hkey] at h

/-- Past the shortcut, when `parse` rejects the text `Decrypt` returns the
error of `parse`. -/
theorem Decrypt_parse_error (lib : Primitive) (ciphertext : Str) (key aad : Bytes) (e : Err)
    (hns : ¬ (ciphertext = [] ∧ aad = [])) (hparse : parse ciphertext = .error e) :
    Decrypt lib ciphertext key aad = .returns ([], .nil, some e) := by
  have hns2 : ¬ (ciphertext = [] ∧ aad.length = 0) := by
    simpa [List.length_eq_zero] using hns
  simp only [Decrypt, if_neg hns2, hparse]

/-- `Decrypt` of a text that `parse` accepts depends on the text only through
the nonce and the body followed by the tag. -/
theorem Decrypt_of_parse (lib : Primitive) (ciphertext : Str) (key aad : Bytes)
    (ev : encryptedValue) (hparse : parse ciphertext = .ok ev) :
    Decrypt lib ciphertext key aad =
      if key.length = 16 ∨ key.length = 24 ∨ key.length = 32 then
        match (lib key).openFn ev.iv (ev.data ++ ev.tag) aad with
        | none => .returns ([], .nil, some .couldNotDecrypt)
        | some decryptedBytes =>
          .returns (decryptedBytes, .stashed ⟨ev.iv, decryptedBytes⟩, none)
      else .returns ([], .nil, some (.keySizeError key.length)) := by
  have hne := parse_ok_ne_nil ciphertext ev hparse
  by_cases hkey : key.length = 16 ∨ key.length = 24 ∨ key.length = 32
  · rw [if_pos hkey, Decrypt_eq lib ciphertext key aad ev (fun h => hne h.1) hparse hkey]
  · rw [if_neg hkey, Decrypt_key_error lib ciphertext key aad ev hparse hkey]

/-! ## The claims -/

/-- C1 (round trip): for a key of 16, 24 or 32 bytes, any plaintext, any
additional data and any 12 bytes from the random source, `Encrypt` without a
stash returns a string `C` and no error, and `Decrypt` of `C` under the same key
and additional data returns the plaintext and no error, provided the primitive
opens what it has just sealed. With an empty plaintext and non-empty additional
data `C` has two fields; with both empty `C` is the empty string. -/
theorem Decrypt_Encrypt_roundtrip (lib : Primitive) (key : Bytes) (plaintext : Str)
    (aad : Bytes) (nonce : { iv : Bytes // iv.length = gcmNonceSize })
    (hkey : key.length = 16 ∨ key.length = 24 ∨ key.length = 32)
    (hinv : (lib key).openFn nonce.val ((lib key).sealFn nonce.val plaintext aad) aad =
      some plaintext) :
    ∃ C, Encrypt lib (some nonce) plaintext key aad .nil = .returns (C, none) ∧
      (∃ stash, Decrypt lib C key aad = .returns (plaintext, stash, none)) ∧
      (plaintext = [] → aad ≠ [] → (Split C).length = 2) ∧
      (plaintext = [] → aad = [] → C = []) := by
  by_cases hs : plaintext = [] ∧ aad = []
  · refine ⟨[], ?_, ⟨.nil, ?_⟩, ?_, ?_⟩
    · simp [Encrypt, hs.1, hs.2]
    · simp [Decrypt, hs.1, hs.2]
    · intro _ h; exact absurd hs.2 h
    · intro _ _; rfl
  · have hiv := nonce.property
    have hch : chooseIV (some nonce) plaintext .nil = .ok nonce.val := by
      simp [chooseIV, Iface.assertStashedValue]
    have henc : Encrypt lib (some nonce) plaintext key aad .nil =
        .returns (encode (((lib key).sealFn nonce.val plaintext aad).take plaintext.length)
          nonce.val (((lib key).sealFn nonce.val plaintext aad).drop plaintext.length),
          none) := by
      rw [Encrypt_eq lib _ plaintext key aad _ hs hkey, hch]
      simp only
      rw [sealEncode_returns _ _ _ _ hiv]
    refine ⟨_, henc, ⟨.stashed ⟨nonce.val, plaintext⟩, ?_⟩, ?_, ?_⟩
    · have hne := encode_ne_nil
        (((lib key).sealFn nonce.val plaintext aad).take plaintext.length) nonce.val
        (((lib key).sealFn nonce.val plaintext aad).drop plaintext.length) hiv
      rw [Decrypt_eq lib _ key aad _ (fun h => hne h.1) (parse_encode _ _ _ hiv) hkey]
      simp only [List.take_append_drop, hinv]
    · intro hp _
      rw [Split_encode, hp]
      simp
    · intro hp ha
      exact absurd ⟨hp, ha⟩ hs

/-- C1, the spec's scenario: key of 16 zero bytes, plaintext `hello`, no
additional data, under AES-GCM. -/
theorem Decrypt_Encrypt_roundtrip_witness :
    (zeroKey.length = 16 ∨ zeroKey.length = 24 ∨ zeroKey.length = 32) ∧
    ∃ C, Encrypt aesgcm (some zeroNonce) (str "hello") zeroKey [] .nil = .returns (C, none) ∧
      (∃ stash, Decrypt aesgcm C zeroKey [] = .returns (str "hello", stash, none)) ∧
      (str "hello" = [] → ([] : Bytes) ≠ [] → (Split C).length = 2) ∧
      (str "hello" = [] → ([] : Bytes) = [] → C = []) :=
  ⟨by decide, Decrypt_Encrypt_roundtrip aesgcm zeroKey (str "hello") [] zeroNonce (by decide)
    (aesgcm_opens_sealed zeroKey zeroNonce.val (str "hello") [])⟩

set_option maxRecDepth 100000 in
/-- C2 refuted as stated, under AES-GCM with the key of 16 zero bytes. (1) The
two-field text of NIST's test case 1 decrypts, with no additional data, to the
empty plaintext and a stash, and `Encrypt` of that plaintext with that stash
takes the shortcut and returns the empty string. (2) A text with a leading dot
decrypts, and `Encrypt` writes it back without the dot. (3) A body whose base64
ends in `9=` decrypts like the one ending in `8=`, which `Encrypt` writes. -/
theorem stash_stability_counterexample :
    (Decrypt aesgcm (str "AAAAAAAAAAAAAAAA.WOL8zvp+MGE2fx1XpOdFWg==") zeroKey [] =
        .returns ([], .stashed ⟨zeroNonce.val, []⟩, none) ∧
      Encrypt aesgcm none [] zeroKey [] (.stashed ⟨zeroNonce.val, []⟩) =
        .returns ([], none)) ∧
    (Decrypt aesgcm (str ".AAAAAAAAAAAAAAAA.peCCmxkWN/pSwgL4JnBT9w==") zeroKey (str "a") =
        .returns ([], .stashed ⟨zeroNonce.val, []⟩, none) ∧
      Encrypt aesgcm none [] zeroKey (str "a") (.stashed ⟨zeroNonce.val, []⟩) =
        .returns (str "AAAAAAAAAAAAAAAA.peCCmxkWN/pSwgL4JnBT9w==", none)) ∧
    (Decrypt aesgcm (str "a+22og9=.AAAAAAAAAAAAAAAA./AXzR10pA0yqHMj6NijDnw==") zeroKey [] =
        .returns (str "hello", .stashed ⟨zeroNonce.val, str "hello"⟩, none) ∧
      Encrypt aesgcm none (str "hello") zeroKey [] (.stashed ⟨zeroNonce.val, str "hello"⟩) =
        .returns (str "a+22og8=.AAAAAAAAAAAAAAAA./AXzR10pA0yqHMj6NijDnw==", none)) := by
  refine ⟨⟨?_, ?_⟩, ⟨?_, ?_⟩, ⟨?_, ?_⟩⟩ <;> decide!

/-- C2 as amended (stash stability): if `Decrypt` of `C1` succeeds with
plaintext `P` and stash `S`, and `C1` is either the empty string (with no
additional data), or is in the form `Encrypt` writes (the encoding of the parts
it parses to, with a tag of 16 bytes) with `P` or the additional data non-empty,
then `Encrypt` of `P` with `S` returns exactly `C1` whatever the random source
does, provided sealing gives back what the primitive opened. -/
theorem stash_stability (lib : Primitive) (C1 : Str) (key aad : Bytes) (P : Str) (S : Iface)
    (hdec : Decrypt lib C1 key aad = .returns (P, S, none))
    (hform : (C1 = [] ∧ aad = []) ∨
      (¬ (P = [] ∧ aad = []) ∧ ∃ ev, parse C1 = .ok ev ∧
        C1 = encode ev.data ev.iv ev.tag ∧ ev.tag.length = aesBlockSize))
    (hlaw : ∀ n c, (lib key).openFn n c aad = some P → (lib key).sealFn n P aad = c) :
    ∀ rand, Encrypt lib rand P key aad S = .returns (C1, none) := by
  intro rand
  rcases Decrypt_success lib C1 key aad P S hdec with h | h
  · obtain ⟨hC, ha, hP, _⟩ := h
    simp [Encrypt, hC, ha, hP]
  · obtain ⟨hns, hkey, ev, hparse, hopen, hS⟩ := h
    rcases hform with hf | hf
    · exact absurd hf hns
    · obtain ⟨hne, ev2, hparse2, hcanon, htag⟩ := hf
      rw [hparse] at hparse2
      injection hparse2 with hev
      subst hev
      rw [hS]
      exact Encrypt_stash_canonical lib rand C1 key aad P ev hkey hparse hcanon htag hne
        (hlaw _ _ hopen)

set_option maxRecDepth 100000 in
/-- C2 as amended, at the ciphertext of `hello` under the key of 16 zero bytes
and the nonce of 12 zero bytes, with AES-GCM and a failing random source. -/
theorem stash_stability_witness :
    Encrypt aesgcm none (str "hello") zeroKey [] (.stashed ⟨zeroNonce.val, str "hello"⟩) =
      .returns (str "a+22og8=.AAAAAAAAAAAAAAAA./AXzR10pA0yqHMj6NijDnw==", none) :=
  stash_stability aesgcm (str "a+22og8=.AAAAAAAAAAAAAAAA./AXzR10pA0yqHMj6NijDnw==") zeroKey []
    (str "hello") (.stashed ⟨zeroNonce.val, str "hello"⟩) (by decide!)
    (Or.inr ⟨by decide!,
      ⟨(aesgcmSeal zeroKey zeroNonce.val (str "hello") []).take 5, zeroNonce.val,
        (aesgcmSeal zeroKey zeroNonce.val (str "hello") []).drop 5⟩,
      by decide!, by decide!, by decide!⟩)
    (fun n c h => aesgcm_seals_opened zeroKey n c [] (str "hello") h) none

/-- C3 (nonce selection): past the shortcut and with a valid key, `Encrypt`
seals with the stash's nonce, whatever the random source does, when the stash is
a `stashedValue` of the same plaintext; in every other case a failing random
source makes it fail, the 12 bytes read are the nonce, and any two such stashes
give the same result. `Encrypt` ignores the random source if and only if the
stash is a `stashedValue` of the same plaintext. The nonce sealed with is the
nonce field of the output. -/
theorem Encrypt_nonce_selection (lib : Primitive) (plaintext : Str) (key aad : Bytes)
    (stash : Iface) (hns : ¬ (plaintext = [] ∧ aad = []))
    (hkey : key.length = 16 ∨ key.length = 24 ∨ key.length = 32) :
    (∀ sv, stash = .stashed sv → sv.plaintext = plaintext → ∀ rand,
      Encrypt lib rand plaintext key aad stash = sealEncode (lib key) sv.iv plaintext aad) ∧
    ((∀ sv, stash = .stashed sv → sv.plaintext ≠ plaintext) →
      Encrypt lib none plaintext key aad stash =
        .returns ([], some .couldNotGenerateRandom) ∧
      (∀ nonce, Encrypt lib (some nonce) plaintext key aad stash =
        sealEncode (lib key) nonce.val plaintext aad) ∧
      (∀ rand stash2, (∀ sv, stash2 = .stashed sv → sv.plaintext ≠ plaintext) →
        Encrypt lib rand plaintext key aad stash =
          Encrypt lib rand plaintext key aad stash2)) ∧
    ((∀ r1 r2, Encrypt lib r1 plaintext key aad stash =
        Encrypt lib r2 plaintext key aad stash) ↔
      ∃ sv, stash = .stashed sv ∧ sv.plaintext = plaintext) ∧
    (∀ iv, iv.length = gcmNonceSize → ∃ C ev,
      sealEncode (lib key) iv plaintext aad = .returns (C, none) ∧ parse C = .ok ev ∧
        ev.iv = iv ∧ ev.data ++ ev.tag = (lib key).sealFn iv plaintext aad) := by
  have hreuse : ∀ sv, stash = .stashed sv → sv.plaintext = plaintext → ∀ rand,
      Encrypt lib rand plaintext key aad stash =
        sealEncode (lib key) sv.iv plaintext aad := by
    intro sv hs hp rand
    have h1 := chooseIV_reuse rand sv
    rw [hp] at h1
    rw [Encrypt_eq lib rand plaintext key aad stash hns hkey, hs, h1]
  have hfresh : ∀ st : Iface, (∀ sv, st = .stashed sv → sv.plaintext ≠ plaintext) →
      ∀ rand, Encrypt lib rand plaintext key aad st =
        match rand with
        | none => .returns ([], some .couldNotGenerateRandom)
        | some iv => sealEncode (lib key) iv.val plaintext aad := by
    intro st hst rand
    rw [Encrypt_eq lib rand plaintext key aad st hns hkey, chooseIV_fresh rand plaintext st hst]
    cases rand <;> rfl
  refine ⟨hreuse, ?_, ?_, ?_⟩
  · intro hst
    refine ⟨hfresh stash hst none, fun nonce => hfresh stash hst (some nonce), ?_⟩
    intro rand stash2 hst2
    rw [hfresh stash hst rand, hfresh stash2 hst2 rand]
  · constructor
    · intro hind
      by_cases hex : ∃ sv, stash = .stashed sv ∧ sv.plaintext = plaintext
      · exact hex
      · have hst : ∀ sv, stash = .stashed sv → sv.plaintext ≠ plaintext :=
          fun sv hs hp => hex ⟨sv, hs, hp⟩
        have h1 := hind none (some zeroNonce)
        rw [hfresh stash hst none, hfresh stash hst (some zeroNonce)] at h1
        simp only at h1
        rw [sealEncode_returns _ _ _ _ zeroNonce.property] at h1
        simp at h1
    · rintro ⟨sv, hs, hp⟩ r1 r2
      rw [hreuse sv hs hp r1, hreuse sv hs hp r2]
  · intro iv hiv
    refine ⟨_, ⟨_, _, _⟩, sealEncode_returns _ _ _ _ hiv, parse_encode _ _ _ hiv, rfl, ?_⟩
    exact List.take_append_drop _ _

/-- C3 at a stash of the plaintext `x` and a failing random source, under
AES-GCM with the key of 16 zero bytes. -/
theorem Encrypt_nonce_selection_witness :
    Encrypt aesgcm none (str "x") zeroKey [] (.stashed ⟨zeroNonce.val, str "x"⟩) =
      sealEncode (aesgcm zeroKey) zeroNonce.val (str "x") [] :=
  (Encrypt_nonce_selection aesgcm (str "x") zeroKey [] (.stashed ⟨zeroNonce.val, str "x"⟩)
    (by decide) (by decide)).1 ⟨zeroNonce.val, str "x"⟩ rfl rfl none

set_option maxRecDepth 100000 in
/-- C4 refuted as stated, under AES-GCM with the key of 16 zero bytes: the
ciphertext of `hello` with the additional data `a` decrypts to a stash, and
`Encrypt` of `hello` with the other additional data `b` and that stash succeeds
though the random source fails, writes the stash's nonce `AAAAAAAAAAAAAAAA`
again, and returns a ciphertext with another tag. -/
theorem nonce_reuse_counterexample :
    Decrypt aesgcm (str "a+22og8=.AAAAAAAAAAAAAAAA.eUyi/lQzAhyWdegOkoBXkw==") zeroKey (str "a") =
      .returns (str "hello", .stashed ⟨zeroNonce.val, str "hello"⟩, none) ∧
    Encrypt aesgcm none (str "hello") zeroKey (str "b")
        (.stashed ⟨zeroNonce.val, str "hello"⟩) =
      .returns (str "a+22og8=.AAAAAAAAAAAAAAAA.tvkc11N2ZROdK6ruQhxa9w==", none) := by
  refine ⟨?_, ?_⟩ <;> decide!

/-- C4 as amended (nonce reuse is confined to an identical plaintext): for the
stash `S` of a successful `Decrypt` of a non-empty `C` with plaintext `p`, a
later `Encrypt` of another plaintext under the same key seals with the bytes read
from the random source; `Encrypt` of `p` seals with the stash's nonce whatever
the additional data is, which is not compared; and with the same additional data
it returns exactly `C` when `C` is in the form `Encrypt` writes with a tag of 16
bytes and sealing gives back what the primitive opened. -/
theorem nonce_reuse_confined_to_plaintext (lib : Primitive) (C : Str) (key aad : Bytes)
    (p : Str) (S : Iface) (hC : C ≠ [])
    (hdec : Decrypt lib C key aad = .returns (p, S, none)) :
    ∃ ev, parse C = .ok ev ∧ S = .stashed ⟨ev.iv, p⟩ ∧
      (∀ nonce p2 a2, p2 ≠ p → ¬ (p2 = [] ∧ a2 = []) →
        Encrypt lib (some nonce) p2 key a2 S = sealEncode (lib key) nonce.val p2 a2) ∧
      (∀ rand a2, ¬ (p = [] ∧ a2 = []) →
        Encrypt lib rand p key a2 S = sealEncode (lib key) ev.iv p a2) ∧
      (∀ rand, ¬ (p = [] ∧ aad = []) → C = encode ev.data ev.iv ev.tag →
        ev.tag.length = aesBlockSize →
        (∀ n c, (lib key).openFn n c aad = some p → (lib key).sealFn n p aad = c) →
        Encrypt lib rand p key aad S = .returns (C, none)) := by
  rcases Decrypt_success lib C key aad p S hdec with h | h
  · exact absurd h.1 hC
  · obtain ⟨_, hkey, ev, hparse, hopen, hS⟩ := h
    refine ⟨ev, hparse, hS, ?_, ?_, ?_⟩
    · intro nonce p2 a2 hp2 hns
      have hch : chooseIV (some nonce) p2 S = .ok nonce.val := by
        rw [chooseIV_fresh (some nonce) p2 S]
        intro sv hsv
        rw [hS] at hsv
        injection hsv with hsv
        rw [← hsv]
        exact fun e => hp2 e.symm
      rw [Encrypt_eq lib _ p2 key a2 S hns hkey, hch]
    · intro rand a2 hns
      have hch := chooseIV_reuse rand ⟨ev.iv, p⟩
      simp only at hch
      rw [Encrypt_eq lib _ p key a2 S hns hkey, hS, hch]
    · intro rand hns hcanon htag hlaw
      rw [hS]
      exact Encrypt_stash_canonical lib rand C key aad p ev hkey hparse hcanon htag hns
        (hlaw _ _ hopen)

set_option maxRecDepth 100000 in
/-- C4 as amended, at the stash of the ciphertext of `hello` with the additional
data `a`: with the additional data `b` the stash's nonce is sealed with again. -/
theorem nonce_reuse_confined_to_plaintext_witness :
    ∃ ev, parse (str "a+22og8=.AAAAAAAAAAAAAAAA.eUyi/lQzAhyWdegOkoBXkw==") = .ok ev ∧
      Encrypt aesgcm none (str "hello") zeroKey (str "b")
          (.stashed ⟨zeroNonce.val, str "hello"⟩) =
        sealEncode (aesgcm zeroKey) ev.iv (str "hello") (str "b") :=
  match nonce_reuse_confined_to_plaintext aesgcm
      (str "a+22og8=.AAAAAAAAAAAAAAAA.eUyi/lQzAhyWdegOkoBXkw==") zeroKey (str "a")
      (str "hello") (.stashed ⟨zeroNonce.val, str "hello"⟩) (by decide!) (by decide!) with
  | ⟨ev, hparse, _, _, hreuse, _⟩ => ⟨ev, hparse, hreuse none (str "b") (by decide)⟩

/-- C5 (empty shortcut): with an empty plaintext and no additional data
`Encrypt` returns the empty string and no error, and with an empty ciphertext
and no additional data `Decrypt` returns the empty plaintext, the nil stash and
no error, for every key, stash, primitive and random source: none of them is
looked at. -/
theorem empty_shortcut (lib : Primitive) (rand : RandRead) (key : Bytes) (stash : Iface) :
    Encrypt lib rand [] key [] stash = .returns ([], none) ∧
    Decrypt lib [] key [] = .returns ([], .nil, none) := by
  simp [Encrypt, Decrypt]

/-- C6 (field-count rejection): `parse` fails with `Unrecognized format` if and
only if the text splits on the dot into a number of fields other than 2 or 3,
and the message then carries the text; the number of fields is the number of
dots plus one, so that a text without a dot, such as `abc` or the empty text, is
rejected so. -/
theorem parse_unrecognizedFormat_iff (value : Str) :
    ((∃ v, parse value = .error (.unrecognizedFormat v)) ↔
      ((Split value).length ≠ 2 ∧ (Split value).length ≠ 3)) ∧
    (∀ v, parse value = .error (.unrecognizedFormat v) → v = value) ∧
    (Split value).length = value.count dot + 1 ∧
    (dot ∉ value → parse value = .error (.unrecognizedFormat value)) ∧
    parse (str "abc") = .error (.unrecognizedFormat (str "abc")) ∧
    parse [] = .error (.unrecognizedFormat []) := by
  have hiff : (∃ v, parse value = .error (.unrecognizedFormat v)) ↔
      ((Split value).length ≠ 2 ∧ (Split value).length ≠ 3) := by
    constructor
    · rintro ⟨v, hv⟩
      by_cases h3 : (expandedChunks value).length = 3
      · obtain ⟨c0, c1, c2, hch⟩ := list_of_length_three _ h3
        exact absurd hv (parse_of_chunks_format value c0 c1 c2 hch v)
      · have := (expandedChunks_length value).not.mp h3
        exact not_or.mp this
    · intro h
      have h3 : (expandedChunks value).length ≠ 3 :=
        (expandedChunks_length value).not.mpr (not_or.mpr h)
      exact ⟨value, parse_malformed value h3⟩
  refine ⟨hiff, ?_, Split_length value, ?_, by decide, by decide⟩
  · intro v hv
    have h := hiff.mp ⟨v, hv⟩
    have h3 : (expandedChunks value).length ≠ 3 :=
      (expandedChunks_length value).not.mpr (not_or.mpr h)
    rw [parse_malformed value h3] at hv
    injection hv with hv
    injection hv with hv
    exact hv.symm
  · intro hdot
    apply parse_malformed
    simp [expandedChunks, Split_of_not_mem value hdot]

/-- C7 refuted as stated: the text `AAAAAAAAAAA=.!` has two fields, its tag
field `!` is not base64, and `parse` fails with `Unexpected iv`, because the
nonce field decodes to 8 bytes and its length is checked before the tag field is
decoded. -/
theorem parse_invalid_base64_counterexample :
    (Split (str "AAAAAAAAAAA=.!")).length = 2 ∧
    expandedChunks (str "AAAAAAAAAAA=.!") = [[], str "AAAAAAAAAAA=", str "!"] ∧
    DecodeString (str "!") = none ∧
    parse (str "AAAAAAAAAAA=.!") = .error .unexpectedIv := by
  decide

/-- C7 as amended (invalid base64): on a text of 2 or 3 fields, with chunks
`c0`, `c1`, `c2` after the expansion, `parse` fails with the base64 error naming
`data` when `c0` does not decode; naming `iv` when `c0` decodes and `c1` does
not; naming `tag` when `c0` decodes, `c1` decodes to 12 bytes and `c2` does not
decode; when `c1` decodes to another number of bytes the error is `Unexpected
iv` whatever the tag field is. A base64 error always names a chunk that does not
decode. -/
theorem parse_invalid_base64 (value : Str)
    (hfields : (Split value).length = 2 ∨ (Split value).length = 3) :
    ∃ c0 c1 c2, expandedChunks value = [c0, c1, c2] ∧
      (DecodeString c0 = none → parse value = .error (.base64Decoding .data)) ∧
      (DecodeString c0 ≠ none → DecodeString c1 = none →
        parse value = .error (.base64Decoding .iv)) ∧
      (∀ iv, DecodeString c0 ≠ none → DecodeString c1 = some iv →
        iv.length = gcmNonceSize → DecodeString c2 = none →
        parse value = .error (.base64Decoding .tag)) ∧
      (∀ iv, DecodeString c0 ≠ none → DecodeString c1 = some iv →
        iv.length ≠ gcmNonceSize → parse value = .error .unexpectedIv) ∧
      (∀ field, parse value = .error (.base64Decoding field) →
        DecodeString (match field with | .data => c0 | .iv => c1 | .tag => c2) = none) := by
  obtain ⟨c0, c1, c2, hch⟩ :=
    list_of_length_three _ ((expandedChunks_length value).mpr hfields)
  refine ⟨c0, c1, c2, hch, ?_, ?_, ?_, ?_, ?_⟩
  · intro h0
    rw [parse_of_chunks value c0 c1 c2 hch, decodeChunks, h0]
  · intro h0 h1
    rw [parse_of_chunks value c0 c1 c2 hch, decodeChunks, h1]
    cases hd : DecodeString c0 with
    | none => exact absurd hd h0
    | some d => rfl
  · intro iv h0 h1 hl h2
    rw [parse_of_chunks value c0 c1 c2 hch, decodeChunks, h1, h2]
    cases hd : DecodeString c0 with
    | none => exact absurd hd h0
    | some d => simp [hl]
  · intro iv h0 h1 hl
    rw [parse_of_chunks value c0 c1 c2 hch, decodeChunks, h1]
    cases hd : DecodeString c0 with
    | none => exact absurd hd h0
    | some d => simp [hl]
  · intro field hf
    rw [parse_of_chunks value c0 c1 c2 hch, decodeChunks] at hf
    cases hd : DecodeString c0 with
    | none =>
      rw [hd] at hf
      simp only [Except.error.injEq, Err.base64Decoding.injEq] at hf
      rw [← hf]
      exact hd
    | some d =>
      rw [hd] at hf
      cases hi : DecodeString c1 with
      | none =>
        rw [hi] at hf
        simp only [Except.error.injEq, Err.base64Decoding.injEq] at hf
        rw [← hf]
        exact hi
      | some iv =>
        rw [hi] at hf
        by_cases hl : iv.length = gcmNonceSize
        · cases ht : DecodeString c2 with
          | none =>
            rw [ht] at hf
            simp only [hl, ne_eq, not_true_eq_false, if_false, Except.error.injEq,
              Err.base64Decoding.injEq] at hf
            rw [← hf]
            exact ht
          | some t =>
            rw [ht] at hf
            simp [hl] at hf
        · simp [hl] at hf

/-- C7 as amended, at the text `AAAAAAAAAAAAAAAA.!`: the nonce field decodes to
12 bytes and the error names the tag. -/
theorem parse_invalid_base64_witness :
    ((Split (str "AAAAAAAAAAAAAAAA.!")).length = 2 ∨
      (Split (str "AAAAAAAAAAAAAAAA.!")).length = 3) ∧
    parse (str "AAAAAAAAAAAAAAAA.!") = .error (.base64Decoding .tag) :=
  ⟨by decide,
    match parse_invalid_base64 (str "AAAAAAAAAAAAAAAA.!") (by decide) with
    | ⟨_, _, _, hch, _, _, htag, _, _⟩ => by
      have h : expandedChunks (str "AAAAAAAAAAAAAAAA.!") =
          [[], str "AAAAAAAAAAAAAAAA", str "!"] := by decide
      rw [h] at hch
      injection hch with h0 hch
      injection hch with h1 hch
      injection hch with h2 _
      subst h0 h1 h2
      exact htag (List.replicate 12 0) (by decide) (by decide) (by decide) (by decide)⟩

/-- C8 (nonce length check): on a text whose three chunks all decode, `parse`
succeeds, with the decoded parts, if and only if the nonce chunk decodes to 12
bytes, and fails with `Unexpected iv` otherwise; whatever `parse` returns has a
nonce of 12 bytes. -/
theorem parse_nonce_length (value c0 c1 c2 : Str) (data iv tag : Bytes)
    (hch : expandedChunks value = [c0, c1, c2]) (h0 : DecodeString c0 = some data)
    (h1 : DecodeString c1 = some iv) (h2 : DecodeString c2 = some tag) :
    ((∃ ev, parse value = .ok ev) ↔ iv.length = gcmNonceSize) ∧
    (iv.length = gcmNonceSize → parse value = .ok ⟨data, iv, tag⟩) ∧
    (iv.length ≠ gcmNonceSize → parse value = .error .unexpectedIv) ∧
    (∀ v ev, parse v = .ok ev → ev.iv.length = gcmNonceSize) := by
  have hok : iv.length = gcmNonceSize → parse value = .ok ⟨data, iv, tag⟩ := by
    intro hl
    rw [parse_of_chunks value c0 c1 c2 hch, decodeChunks, h0, h1, h2]
    simp [hl]
  have herr : iv.length ≠ gcmNonceSize → parse value = .error .unexpectedIv := by
    intro hl
    rw [parse_of_chunks value c0 c1 c2 hch, decodeChunks, h0, h1, h2]
    simp [hl]
  refine ⟨⟨?_, fun hl => ⟨_, hok hl⟩⟩, hok, herr, fun v ev h => (parse_ok v ev h).1⟩
  rintro ⟨ev, hev⟩
  by_contra hl
  rw [herr hl] at hev
  exact absurd hev (by simp)

/-- C8 at the text `AAAAAAAAAAA=.AAAA`, whose nonce field decodes to 8 bytes. -/
theorem parse_nonce_length_witness :
    expandedChunks (str "AAAAAAAAAAA=.AAAA") = [[], str "AAAAAAAAAAA=", str "AAAA"] ∧
    DecodeString (str "AAAAAAAAAAA=") = some (List.replicate 8 0) ∧
    parse (str "AAAAAAAAAAA=.AAAA") = .error .unexpectedIv :=
  ⟨by decide, by decide,
    (parse_nonce_length (str "AAAAAAAAAAA=.AAAA") [] (str "AAAAAAAAAAA=") (str "AAAA")
      [] (List.replicate 8 0) (List.replicate 3 0) (by decide) (by decide) (by decide)
      (by decide)).2.2.1 (by decide)⟩

set_option maxRecDepth 100000 in
/-- C9 refuted as stated, under AES-GCM with the key of 16 zero bytes and no
additional data. (1) In the two-field text made of NIST's test case 2 the tag
field decodes to 32 bytes, body and tag together, and `Decrypt` succeeds with
the plaintext of 16 zero bytes. (2) In the three-field text of test case 1 with
the tag written in the body field, the tag field is empty and decodes to 0
bytes, and `Decrypt` succeeds with the empty plaintext. -/
theorem tag_length_counterexample :
    (expandedChunks (str "AAAAAAAAAAAAAAAA.A4jazmC2o5LzKMK5cbL+eKtuR9Qs7BO99TpnshJXvd8=") =
        [[], str "AAAAAAAAAAAAAAAA", str "A4jazmC2o5LzKMK5cbL+eKtuR9Qs7BO99TpnshJXvd8="] ∧
      (DecodeString (str "A4jazmC2o5LzKMK5cbL+eKtuR9Qs7BO99TpnshJXvd8=")).map List.length =
        some 32 ∧
      Decrypt aesgcm (str "AAAAAAAAAAAAAAAA.A4jazmC2o5LzKMK5cbL+eKtuR9Qs7BO99TpnshJXvd8=")
          zeroKey [] =
        .returns (List.replicate 16 0,
          .stashed ⟨zeroNonce.val, List.replicate 16 0⟩, none)) ∧
    (expandedChunks (str "WOL8zvp+MGE2fx1XpOdFWg==.AAAAAAAAAAAAAAAA.") =
        [str "WOL8zvp+MGE2fx1XpOdFWg==", str "AAAAAAAAAAAAAAAA", []] ∧
      (DecodeString []).map List.length = some 0 ∧
      Decrypt aesgcm (str "WOL8zvp+MGE2fx1XpOdFWg==.AAAAAAAAAAAAAAAA.") zeroKey [] =
        .returns ([], .stashed ⟨zeroNonce.val, []⟩, none)) := by
  refine ⟨⟨?_, ?_, ?_⟩, ⟨?_, ?_, ?_⟩⟩ <;> decide!

/-- C9 as amended (length of body and tag together): if `Decrypt` of a non-empty
ciphertext succeeds, then the text parses and its body and tag fields together
decode to 16 bytes more than the plaintext has, provided the primitive opens
only what is 16 bytes longer than the plaintext; the tag field alone is not
checked. -/
theorem Decrypt_body_tag_length (lib : Primitive) (C : Str) (key aad : Bytes) (P : Str)
    (S : Iface) (hC : C ≠ [])
    (hdec : Decrypt lib C key aad = .returns (P, S, none))
    (hlaw : ∀ n c, (lib key).openFn n c aad = some P → c.length = P.length + gcmTagSize) :
    ∃ ev, parse C = .ok ev ∧ ev.data.length + ev.tag.length = P.length + gcmTagSize := by
  rcases Decrypt_success lib C key aad P S hdec with h | h
  · exact absurd h.1 hC
  · obtain ⟨_, _, ev, hparse, hopen, _⟩ := h
    refine ⟨ev, hparse, ?_⟩
    have := hlaw _ _ hopen
    rwa [List.length_append] at this

set_option maxRecDepth 100000 in
/-- C9 as amended, at the two-field text of NIST's test case 2: the 32 bytes of
its fields are 16 more than the 16 bytes of the plaintext. -/
theorem Decrypt_body_tag_length_witness :
    ∃ ev, parse (str "AAAAAAAAAAAAAAAA.A4jazmC2o5LzKMK5cbL+eKtuR9Qs7BO99TpnshJXvd8=") = .ok ev ∧
      ev.data.length + ev.tag.length = (List.replicate 16 (0 : Byte)).length + gcmTagSize :=
  Decrypt_body_tag_length aesgcm
    (str "AAAAAAAAAAAAAAAA.A4jazmC2o5LzKMK5cbL+eKtuR9Qs7BO99TpnshJXvd8=") zeroKey []
    (List.replicate 16 0) (.stashed ⟨zeroNonce.val, List.replicate 16 0⟩) (by decide!)
    (by decide!) (fun n c h => aesgcm_opened_length zeroKey n c [] _ h)

/-- C10 (fail closed): whenever `Decrypt` returns an error its plaintext is the
empty string and its stash is nil, and whenever `Encrypt` returns an error its
ciphertext is the empty string. -/
theorem fail_closed (lib : Primitive) (rand : RandRead) (ciphertext plaintext : Str)
    (key aad : Bytes) (stash : Iface) :
    (∀ p s e, Decrypt lib ciphertext key aad = .returns (p, s, some e) →
      p = [] ∧ s = .nil) ∧
    (∀ c e, Encrypt lib rand plaintext key aad stash = .returns (c, some e) → c = []) := by
  constructor
  · intro p s e h
    unfold Decrypt at h
    split at h
    · simp at h
    · split at h
      · simp only [Outcome.returns.injEq, Prod.mk.injEq] at h
        exact ⟨h.1.symm, h.2.1.symm⟩
      · split at h
        · simp only [Outcome.returns.injEq, Prod.mk.injEq] at h
          exact ⟨h.1.symm, h.2.1.symm⟩
        · split at h
          · simp only [Outcome.returns.injEq, Prod.mk.injEq] at h
            exact ⟨h.1.symm, h.2.1.symm⟩
          · simp only at h
            split at h
            · exact absurd h (by simp)
            · simp only [Outcome.returns.injEq, Prod.mk.injEq] at h
              exact ⟨h.1.symm, h.2.1.symm⟩
            · simp at h
  · intro c e h
    unfold Encrypt at h
    split at h
    · simp at h
    · split at h
      · simp only [Outcome.returns.injEq, Prod.mk.injEq] at h
        exact h.1.symm
      · split at h
        · simp only [Outcome.returns.injEq, Prod.mk.injEq] at h
          exact h.1.symm
        · split at h
          · simp only [Outcome.returns.injEq, Prod.mk.injEq] at h
            exact h.1.symm
          · unfold sealEncode at h
            split at h
            · exact absurd h (by simp)
            · split at h
              · exact absurd h (by simp)
              · simp at h

/-- C10 at a text without a dot, which `Decrypt` rejects, and at a key of 15
bytes, which `Encrypt` rejects. -/
theorem fail_closed_witness :
    Decrypt aesgcm (str "abc") zeroKey [] =
      .returns ([], .nil, some (.unrecognizedFormat (str "abc"))) ∧
    Encrypt aesgcm (some zeroNonce) (str "hello") (List.replicate 15 0) [] .nil =
      .returns ([], some (.couldNotInitialize 15)) ∧
    (([] : Str) = [] ∧ Iface.nil = Iface.nil) ∧ ([] : Str) = [] :=
  ⟨by decide, by decide,
    (fail_closed aesgcm (some zeroNonce) (str "abc") (str "hello") zeroKey [] .nil).1
      [] .nil (.unrecognizedFormat (str "abc")) (by decide),
    (fail_closed aesgcm (some zeroNonce) (str "abc") (str "hello") (List.replicate 15 0) []
      .nil).2 [] (.couldNotInitialize 15) (by decide)⟩

/-- C11 (key size): past the shortcut and with a working random source,
`Encrypt` returns an error if and only if the key is not 16, 24 or 32 bytes long,
the error is then `Could not initialize AES cipher` with the key's length, and
with a valid key and a stash whose nonce, if it is used, has 12 bytes, `Encrypt`
succeeds. `Decrypt` of a text that `parse` accepts, with a key of another
length, returns `KeySizeError` for every primitive: the AEAD is not called. -/
theorem key_size (lib : Primitive) (nonce : { iv : Bytes // iv.length = gcmNonceSize })
    (plaintext : Str) (key aad : Bytes) (stash : Iface)
    (hns : ¬ (plaintext = [] ∧ aad = [])) :
    ((∃ c e, Encrypt lib (some nonce) plaintext key aad stash = .returns (c, some e)) ↔
      ¬ (key.length = 16 ∨ key.length = 24 ∨ key.length = 32)) ∧
    (¬ (key.length = 16 ∨ key.length = 24 ∨ key.length = 32) →
      Encrypt lib (some nonce) plaintext key aad stash =
        .returns ([], some (.couldNotInitialize key.length))) ∧
    ((key.length = 16 ∨ key.length = 24 ∨ key.length = 32) →
      (∀ sv, stash = .stashed sv → sv.plaintext = plaintext →
        sv.iv.length = gcmNonceSize) →
      ∃ c, Encrypt lib (some nonce) plaintext key aad stash = .returns (c, none)) ∧
    (∀ (lib2 : Primitive) ciphertext ev, parse ciphertext = .ok ev →
      ¬ (key.length = 16 ∨ key.length = 24 ∨ key.length = 32) →
      Decrypt lib2 ciphertext key aad =
        .returns ([], .nil, some (.keySizeError key.length))) := by
  have hns2 : ¬ (plaintext = [] ∧ aad.length = 0) := by
    simpa [List.length_eq_zero] using hns
  have hbad : ¬ (key.length = 16 ∨ key.length = 24 ∨ key.length = 32) →
      Encrypt lib (some nonce) plaintext key aad stash =
        .returns ([], some (.couldNotInitialize key.length)) := by
    intro hkey
    simp only [Encrypt, if_neg hns2, NewCipher_error key hkey]
  refine ⟨⟨?_, fun hkey => ⟨_, _, hbad hkey⟩⟩, hbad, ?_, ?_⟩
  · rintro ⟨c, e, h⟩ hkey
    obtain ⟨iv, _, henc⟩ := Encrypt_working_rand lib nonce plaintext key aad stash hns hkey
    rw [henc] at h
    exact sealEncode_no_error _ _ _ _ _ _ h
  · intro hkey hst
    obtain ⟨iv, hch, henc⟩ := Encrypt_working_rand lib nonce plaintext key aad stash hns hkey
    have hiv : iv.length = gcmNonceSize := by
      by_cases hex : ∃ sv, stash = .stashed sv ∧ sv.plaintext = plaintext
      · obtain ⟨sv, hs, hp⟩ := hex
        have h1 := chooseIV_reuse (some nonce) sv
        rw [hp, ← hs, hch] at h1
        injection h1 with h1
        rw [h1]
        exact hst sv hs hp
      · have hst2 : ∀ sv, stash = .stashed sv → sv.plaintext ≠ plaintext :=
          fun sv hs hp => hex ⟨sv, hs, hp⟩
        have h1 := chooseIV_fresh (some nonce) plaintext stash hst2
        simp only at h1
        rw [hch] at h1
        injection h1 with h1
        rw [h1]
        exact nonce.property
    exact ⟨_, by rw [henc, sealEncode_returns _ _ _ _ hiv]⟩
  · intro lib2 ciphertext ev hparse hkey
    exact Decrypt_key_error lib2 ciphertext key aad ev hparse hkey

/-- C11 at a key of 15 bytes and the plaintext `hello`, under AES-GCM. -/
theorem key_size_witness :
    Encrypt aesgcm (some zeroNonce) (str "hello") (List.replicate 15 0) [] .nil =
      .returns ([], some (.couldNotInitialize (List.replicate 15 (0 : Byte)).length)) :=
  (key_size aesgcm zeroNonce (str "hello") (List.replicate 15 0) [] .nil
    (by decide)).2.1 (by decide)

/-- C12 (codec round trip): `parse` of what `encode` writes for a body, a nonce
of 12 bytes and a tag returns exactly these three; the text has two fields when
the body is empty and three otherwise. -/
theorem parse_encode_roundtrip (body nonce tag : Bytes) (hnonce : nonce.length = gcmNonceSize) :
    parse (encode body nonce tag) = .ok ⟨body, nonce, tag⟩ ∧
    (body = [] → (Split (encode body nonce tag)).length = 2) ∧
    (body ≠ [] → (Split (encode body nonce tag)).length = 3) := by
  refine ⟨parse_encode body nonce tag hnonce, ?_, ?_⟩
  · intro hb
    rw [Split_encode, if_pos hb]
    rfl
  · intro hb
    rw [Split_encode, if_neg hb]
    rfl

/-- C12 at the body `hello`, the nonce of 12 zero bytes and a tag of 16 zero
bytes. -/
theorem parse_encode_roundtrip_witness :
    parse (encode (str "hello") zeroNonce.val (List.replicate 16 0)) =
      .ok ⟨str "hello", zeroNonce.val, List.replicate 16 0⟩ ∧
    (str "hello" = [] →
      (Split (encode (str "hello") zeroNonce.val (List.replicate 16 0))).length = 2) ∧
    (str "hello" ≠ [] →
      (Split (encode (str "hello") zeroNonce.val (List.replicate 16 0))).length = 3) :=
  parse_encode_roundtrip (str "hello") zeroNonce.val (List.replicate 16 0) (by decide)

/-- C13 (shorthand expansion): for a text with exactly one dot, `parse` gives
the same outcome, value or error, as for the text with a dot put in front, and a
value it returns has an empty body. -/
theorem parse_shorthand (s : Str) (hdot : s.count dot = 1) :
    parse s = parse (dot :: s) ∧ (∀ ev, parse s = .ok ev → ev.data = []) := by
  have hlen : (Split s).length = 2 := by rw [Split_length, hdot]
  have h1 : expandedChunks s = [] :: Split s := by
    simp [expandedChunks, hlen]
  have h2 : expandedChunks (dot :: s) = [] :: Split s := by
    simp [expandedChunks, Split_dot_cons, hlen]
  obtain ⟨c1, c2, hs⟩ := list_of_length_two _ hlen
  rw [hs] at h1 h2
  refine ⟨?_, ?_⟩
  · rw [parse_of_chunks s [] c1 c2 h1, parse_of_chunks (dot :: s) [] c1 c2 h2]
  · intro ev hev
    obtain ⟨_, c0, d1, d2, hch, h0, _, _⟩ := parse_ok s ev hev
    rw [h1] at hch
    injection hch with hc0 _
    rw [← hc0] at h0
    have hd : DecodeString [] = some [] := by decide
    rw [hd] at h0
    injection h0 with h0
    exact h0.symm

/-- C13 at the two-field text of NIST's test case 1. -/
theorem parse_shorthand_witness :
    parse (str "AAAAAAAAAAAAAAAA.WOL8zvp+MGE2fx1XpOdFWg==") =
      parse (dot :: str "AAAAAAAAAAAAAAAA.WOL8zvp+MGE2fx1XpOdFWg==") :=
  (parse_shorthand (str "AAAAAAAAAAAAAAAA.WOL8zvp+MGE2fx1XpOdFWg==") (by decide)).1

/-- C14 (stash content): past the shortcut, when `Decrypt` succeeds its stash
is the `stashedValue` of the 12 bytes that the nonce chunk of the ciphertext
decodes to and of the plaintext it returns; when it returns an error its stash is
nil. -/
theorem Decrypt_stash (lib : Primitive) (ciphertext : Str) (key aad : Bytes)
    (hns : ¬ (ciphertext = [] ∧ aad = [])) :
    (∀ p s, Decrypt lib ciphertext key aad = .returns (p, s, none) →
      ∃ c0 c1 c2 iv, expandedChunks ciphertext = [c0, c1, c2] ∧
        DecodeString c1 = some iv ∧ iv.length = gcmNonceSize ∧
        s = .stashed ⟨iv, p⟩ ∧ s ≠ .nil) ∧
    (∀ p s e, Decrypt lib ciphertext key aad = .returns (p, s, some e) → s = .nil) := by
  refine ⟨?_, fun p s e h => (Decrypt_error lib ciphertext key aad p s e h).2⟩
  intro p s h
  rcases Decrypt_success lib ciphertext key aad p s h with h1 | h1
  · exact absurd ⟨h1.1, h1.2.1⟩ hns
  · obtain ⟨_, _, ev, hparse, _, hs⟩ := h1
    obtain ⟨hiv, c0, c1, c2, hch, _, h1d, _⟩ := parse_ok ciphertext ev hparse
    refine ⟨c0, c1, c2, ev.iv, hch, h1d, hiv, hs, ?_⟩
    rw [hs]
    simp

set_option maxRecDepth 100000 in
/-- C14 at the ciphertext of `hello` under the key of 16 zero bytes, with
AES-GCM. -/
theorem Decrypt_stash_witness :
    ∃ c0 c1 c2 iv,
      expandedChunks (str "a+22og8=.AAAAAAAAAAAAAAAA./AXzR10pA0yqHMj6NijDnw==") = [c0, c1, c2] ∧
      DecodeString c1 = some iv ∧ iv.length = gcmNonceSize ∧
      Iface.stashed ⟨zeroNonce.val, str "hello"⟩ = .stashed ⟨iv, str "hello"⟩ ∧
      Iface.stashed ⟨zeroNonce.val, str "hello"⟩ ≠ .nil :=
  (Decrypt_stash aesgcm (str "a+22og8=.AAAAAAAAAAAAAAAA./AXzR10pA0yqHMj6NijDnw==") zeroKey []
    (by decide)).1 (str "hello") (.stashed ⟨zeroNonce.val, str "hello"⟩) (by decide!)

set_option maxRecDepth 100000 in
set_option maxHeartbeats 4000000 in
/-- C15 refuted as stated, under AES-GCM with the key of 16 zero bytes and the
nonce of 12 zero bytes. (1) The text is what `Encrypt` returns for `hello`; with
the last character of its body field changed from `8` to `9`, or the last
character of its tag field from `w` to `x`, `Decrypt` still succeeds with
`hello`; with its first character changed to `!` `Decrypt` fails with the base64
error, with a character changed to a dot with `Unrecognized format`, and with a
key of 15 bytes with `KeySizeError`. (2) A changed body is accepted: for the
ciphertext of the 17 bytes `0123456789abcdefg`, the text with all 17 body bytes
changed and the same nonce and tag decrypts, to another plaintext. (3) Changed
additional data are accepted: the ciphertext of `hello` sealed with 32 bytes of
additional data decrypts with additional data that differ in the last 17
bytes. (4) Another key is accepted: the ciphertext of a plaintext of 16 bytes
decrypts under the key of 16 bytes 1, to another plaintext. -/
theorem tamper_counterexample :
    (Encrypt aesgcm (some zeroNonce) (str "hello") zeroKey [] .nil =
        .returns (str "a+22og8=.AAAAAAAAAAAAAAAA./AXzR10pA0yqHMj6NijDnw==", none) ∧
      Decrypt aesgcm (str "a+22og9=.AAAAAAAAAAAAAAAA./AXzR10pA0yqHMj6NijDnw==") zeroKey [] =
        .returns (str "hello", .stashed ⟨zeroNonce.val, str "hello"⟩, none) ∧
      Decrypt aesgcm (str "a+22og8=.AAAAAAAAAAAAAAAA./AXzR10pA0yqHMj6NijDnx==") zeroKey [] =
        .returns (str "hello", .stashed ⟨zeroNonce.val, str "hello"⟩, none) ∧
      Decrypt aesgcm (str "!+22og8=.AAAAAAAAAAAAAAAA./AXzR10pA0yqHMj6NijDnw==") zeroKey [] =
        .returns ([], .nil, some (.base64Decoding .data)) ∧
      Decrypt aesgcm (str "a+22o.8=.AAAAAAAAAAAAAAAA./AXzR10pA0yqHMj6NijDnw==") zeroKey [] =
        .returns ([], .nil, some (.unrecognizedFormat
          (str "a+22o.8=.AAAAAAAAAAAAAAAA./AXzR10pA0yqHMj6NijDnw=="))) ∧
      Decrypt aesgcm (str "a+22og8=.AAAAAAAAAAAAAAAA./AXzR10pA0yqHMj6NijDnw==")
          (List.replicate 15 0) [] =
        .returns ([], .nil, some (.keySizeError 15))) ∧
    (Encrypt aesgcm (some zeroNonce) (str "0123456789abcdefg") zeroKey [] .nil =
        .returns (str "M7no/VSDlaXLEaPbEtabHpA=.AAAAAAAAAAAAAAAA.BBN7Bg4PFC+n8Oet/J4lYw==",
          none) ∧
      Decrypt aesgcm (str "HtXd4BZrmEX7EoGo567neZE=.AAAAAAAAAAAAAAAA.BBN7Bg4PFC+n8Oet/J4lYw==")
          zeroKey [] =
        .returns ([29, 93, 7, 46, 118, 221, 59, 215, 8, 58, 67, 17, 150, 28, 25, 1, 102],
          .stashed ⟨zeroNonce.val,
            [29, 93, 7, 46, 118, 221, 59, 215, 8, 58, 67, 17, 150, 28, 25, 1, 102]⟩, none)) ∧
    (Encrypt aesgcm (some zeroNonce) (str "hello") zeroKey
          (str "path/to/the/secret/value/number1") .nil =
        .returns (str "a+22og8=.AAAAAAAAAAAAAAAA.wBY8RxNhKBTxejhXELB+gw==", none) ∧
      Decrypt aesgcm (str "a+22og8=.AAAAAAAAAAAAAAAA.wBY8RxNhKBTxejhXELB+gw==") zeroKey
          [112, 97, 116, 104, 47, 116, 111, 47, 116, 104, 101, 47, 115, 101, 99, 115,
            55, 208, 243, 206, 117, 137, 63, 132, 157, 188, 53, 66, 190, 11, 202, 120] =
        .returns (str "hello", .stashed ⟨zeroNonce.val, str "hello"⟩, none)) ∧
    (Encrypt aesgcm (some zeroNonce)
          [202, 135, 122, 26, 3, 223, 56, 226, 182, 146, 114, 2, 50, 151, 11, 56]
          zeroKey [] .nil =
        .returns (str "yQ+g1GNpm3BFurC7QyX1QA==.AAAAAAAAAAAAAAAA.VxhiyqTEjsvyEfiv594r7A==",
          none) ∧
      Decrypt aesgcm (str "yQ+g1GNpm3BFurC7QyX1QA==.AAAAAAAAAAAAAAAA.VxhiyqTEjsvyEfiv594r7A==")
          (List.replicate 16 1) [] =
        .returns ([58, 59, 242, 167, 69, 252, 152, 89, 221, 143, 78, 72, 68, 225, 100, 221],
          .stashed ⟨zeroNonce.val,
            [58, 59, 242, 167, 69, 252, 152, 89, 221, 143, 78, 72, 68, 225, 100, 221]⟩,
          none)) := by
  refine ⟨⟨?_, ?_, ?_, ?_, ?_, ?_⟩, ⟨?_, ?_⟩, ⟨?_, ?_⟩, ⟨?_, ?_⟩⟩ <;> decide!

/-- C15 as amended (tamper sensitivity): let `C` be what `Encrypt` returned
for 12 bytes from the random source; it parses to the nonce, a body and a tag of
16 bytes. Under the same key, `Decrypt` fails with `Could not decrypt` for a
text that parses to the same nonce and body and to other 16 bytes of tag, for a
text that parses to the same body and tag and to another nonce, for a text that
parses to the same nonce and tag and to a body of the same length that differs
within one block of 16 bytes, and for the bytes of `C` with additional data of
the same length that differ within one block of 16 bytes. This is so provided
the primitive accepts at most one tag for a nonce, body and additional data, a
ciphertext under at most one nonce, and at most one of the bodies, and of the
additional data, that differ within one block; a change of one byte is such a
change. A text that parses to the same nonce and the same body followed by tag
decrypts to the original plaintext. A text with the same nonce and other bytes
of body followed by tag either fails or decrypts to another plaintext, provided
sealing gives back what the primitive opened. A non-empty text that `parse`
rejects fails with the error of `parse` and a key of another length than 16, 24
or 32 with `KeySizeError`, under every key and additional data; and under every
valid key and additional data `Decrypt` fails with `Could not decrypt` exactly
when the primitive rejects what the text parses to. -/
theorem tamper_outcome (lib : Primitive) (nonce : { iv : Bytes // iv.length = gcmNonceSize })
    (plaintext : Str) (key aad : Bytes) (C : Str)
    (hns : ¬ (plaintext = [] ∧ aad = []))
    (hinv : (lib key).openFn nonce.val ((lib key).sealFn nonce.val plaintext aad) aad =
      some plaintext)
    (htag : ∀ c t1 t2 p1 p2, t1.length = gcmTagSize → t2.length = gcmTagSize →
      (lib key).openFn nonce.val (c ++ t1) aad = some p1 →
      (lib key).openFn nonce.val (c ++ t2) aad = some p2 → t1 = t2)
    (hnonce : ∀ n2 c p1 p2, n2.length = gcmNonceSize →
      (lib key).openFn nonce.val c aad = some p1 →
      (lib key).openFn n2 c aad = some p2 → n2 = nonce.val)
    (hbody : ∀ k c1 c2 t p1 p2, c1.length = c2.length →
      c1.take (16 * k) = c2.take (16 * k) → c1.drop (16 * k + 16) = c2.drop (16 * k + 16) →
      t.length = gcmTagSize →
      (lib key).openFn nonce.val (c1 ++ t) aad = some p1 →
      (lib key).openFn nonce.val (c2 ++ t) aad = some p2 → c1 = c2)
    (haad : ∀ k a2 c p1 p2, a2.length = aad.length →
      a2.take (16 * k) = aad.take (16 * k) → a2.drop (16 * k + 16) = aad.drop (16 * k + 16) →
      (lib key).openFn nonce.val c aad = some p1 →
      (lib key).openFn nonce.val c a2 = some p2 → a2 = aad)
    (hseal : ∀ c p, (lib key).openFn nonce.val c aad = some p →
      (lib key).sealFn nonce.val p aad = c)
    (henc : Encrypt lib (some nonce) plaintext key aad .nil = .returns (C, none)) :
    ∃ ev, parse C = .ok ev ∧ ev.iv = nonce.val ∧ ev.tag.length = gcmTagSize ∧
      (∀ C2 ev2, parse C2 = .ok ev2 → ev2.iv = ev.iv → ev2.data = ev.data →
        ev2.tag.length = gcmTagSize → ev2.tag ≠ ev.tag →
        Decrypt lib C2 key aad = .returns ([], .nil, some .couldNotDecrypt)) ∧
      (∀ C2 ev2, parse C2 = .ok ev2 → ev2.iv ≠ ev.iv → ev2.data = ev.data →
        ev2.tag = ev.tag →
        Decrypt lib C2 key aad = .returns ([], .nil, some .couldNotDecrypt)) ∧
      (∀ C2 ev2 k, parse C2 = .ok ev2 → ev2.iv = ev.iv → ev2.tag = ev.tag →
        ev2.data.length = ev.data.length →
        ev2.data.take (16 * k) = ev.data.take (16 * k) →
        ev2.data.drop (16 * k + 16) = ev.data.drop (16 * k + 16) →
        ev2.data ≠ ev.data →
        Decrypt lib C2 key aad = .returns ([], .nil, some .couldNotDecrypt)) ∧
      (∀ C2 ev2 k aad2, parse C2 = .ok ev2 → ev2.iv = ev.iv →
        ev2.data ++ ev2.tag = ev.data ++ ev.tag →
        aad2.length = aad.length →
        aad2.take (16 * k) = aad.take (16 * k) →
        aad2.drop (16 * k + 16) = aad.drop (16 * k + 16) →
        aad2 ≠ aad →
        Decrypt lib C2 key aad2 = .returns ([], .nil, some .couldNotDecrypt)) ∧
      (∀ C2 ev2, parse C2 = .ok ev2 → ev2.iv = ev.iv →
        ev2.data ++ ev2.tag = ev.data ++ ev.tag →
        Decrypt lib C2 key aad =
          .returns (plaintext, .stashed ⟨nonce.val, plaintext⟩, none)) ∧
      (∀ C2 ev2 s, parse C2 = .ok ev2 → ev2.iv = ev.iv →
        ev2.data ++ ev2.tag ≠ ev.data ++ ev.tag →
        Decrypt lib C2 key aad ≠ .returns (plaintext, s, none)) ∧
      (∀ C2 e key2 aad2, C2 ≠ [] → parse C2 = .error e →
        Decrypt lib C2 key2 aad2 = .returns ([], .nil, some e)) ∧
      (∀ C2 ev2 key2 aad2, parse C2 = .ok ev2 →
        ¬ (key2.length = 16 ∨ key2.length = 24 ∨ key2.length = 32) →
        Decrypt lib C2 key2 aad2 = .returns ([], .nil, some (.keySizeError key2.length))) ∧
      (∀ C2 ev2 key2 aad2, parse C2 = .ok ev2 →
        (key2.length = 16 ∨ key2.length = 24 ∨ key2.length = 32) →
        (Decrypt lib C2 key2 aad2 = .returns ([], .nil, some .couldNotDecrypt) ↔
          (lib key2).openFn ev2.iv (ev2.data ++ ev2.tag) aad2 = none)) := by
  obtain ⟨hkey, iv, hch, _, hC⟩ :=
    Encrypt_success lib (some nonce) plaintext key aad .nil C hns henc
  have hivn : iv = nonce.val := by
    have h1 : chooseIV (some nonce) plaintext .nil = .ok nonce.val := by
      simp [chooseIV, Iface.assertStashedValue]
    rw [h1] at hch
    injection hch with hch
    exact hch.symm
  subst hivn
  have hsl := (lib key).overhead nonce.val plaintext aad nonce.property
  have hparse := parse_encode (((lib key).sealFn nonce.val plaintext aad).take plaintext.length)
    nonce.val (((lib key).sealFn nonce.val plaintext aad).drop plaintext.length) nonce.property
  rw [← hC] at hparse
  have hcat : ((lib key).sealFn nonce.val plaintext aad).take plaintext.length ++
      ((lib key).sealFn nonce.val plaintext aad).drop plaintext.length =
      (lib key).sealFn nonce.val plaintext aad := List.take_append_drop _ _
  have hopen0 : (lib key).openFn nonce.val
      (((lib key).sealFn nonce.val plaintext aad).take plaintext.length ++
        ((lib key).sealFn nonce.val plaintext aad).drop plaintext.length) aad =
      some plaintext := by rw [hcat]; exact hinv
  have htl : (((lib key).sealFn nonce.val plaintext aad).drop plaintext.length).length =
      gcmTagSize := by
    rw [List.length_drop, hsl]; omega
  refine ⟨_, hparse, rfl, htl, ?_, ?_, ?_, ?_, ?_, ?_, ?_, ?_, ?_⟩
  · intro C2 ev2 hp2 hiv hdata hlen hne
    rw [Decrypt_of_parse lib C2 key aad ev2 hp2, if_pos hkey]
    cases ho : (lib key).openFn ev2.iv (ev2.data ++ ev2.tag) aad with
    | none => rfl
    | some d =>
      exfalso
      apply hne
      simp only at hiv hdata
      rw [hiv, hdata] at ho
      exact htag _ ev2.tag _ d plaintext hlen htl ho hopen0
  · intro C2 ev2 hp2 hiv hdata htag2
    rw [Decrypt_of_parse lib C2 key aad ev2 hp2, if_pos hkey]
    cases ho : (lib key).openFn ev2.iv (ev2.data ++ ev2.tag) aad with
    | none => rfl
    | some d =>
      exfalso
      apply hiv
      simp only at hdata htag2
      rw [hdata, htag2] at ho
      exact hnonce ev2.iv _ plaintext d (parse_ok C2 ev2 hp2).1 hopen0 ho
  · intro C2 ev2 k hp2 hiv htag2 hlen htk hdr hne
    rw [Decrypt_of_parse lib C2 key aad ev2 hp2, if_pos hkey]
    cases ho : (lib key).openFn ev2.iv (ev2.data ++ ev2.tag) aad with
    | none => rfl
    | some d =>
      exfalso
      apply hne
      simp only at hiv htag2 hlen htk hdr ⊢
      rw [hiv, htag2] at ho
      exact hbody k _ _ _ d plaintext hlen htk hdr htl ho hopen0
  · intro C2 ev2 k aad2 hp2 hiv hcat2 hlen htk hdr hne
    rw [Decrypt_of_parse lib C2 key aad2 ev2 hp2, if_pos hkey]
    cases ho : (lib key).openFn ev2.iv (ev2.data ++ ev2.tag) aad2 with
    | none => rfl
    | some d =>
      exfalso
      apply hne
      simp only at hiv hcat2
      rw [hiv, hcat2] at ho
      exact haad k aad2 _ plaintext d hlen htk hdr hopen0 ho
  · intro C2 ev2 hp2 hiv hcat2
    simp only at hiv hcat2
    rw [Decrypt_of_parse lib C2 key aad ev2 hp2, if_pos hkey, hiv, hcat2, hopen0]
  · intro C2 ev2 s hp2 hiv hcat2 hdec
    simp only at hiv hcat2
    rw [Decrypt_of_parse lib C2 key aad ev2 hp2, if_pos hkey] at hdec
    cases ho : (lib key).openFn ev2.iv (ev2.data ++ ev2.tag) aad with
    | none => rw [ho] at hdec; simp at hdec
    | some d =>
      rw [ho] at hdec
      simp only [Outcome.returns.injEq, Prod.mk.injEq, and_true] at hdec
      rw [hiv, hdec.1] at ho
      apply hcat2
      rw [hcat, ← hseal _ _ ho]
  · intro C2 e key2 aad2 hne he
    exact Decrypt_parse_error lib C2 key2 aad2 e (fun h => hne h.1) he
  · intro C2 ev2 key2 aad2 hp2 hk2
    exact Decrypt_key_error lib C2 key2 aad2 ev2 hp2 hk2
  · intro C2 ev2 key2 aad2 hp2 hk2
    rw [Decrypt_of_parse lib C2 key2 aad2 ev2 hp2, if_pos hk2]
    cases (lib key2).openFn ev2.iv (ev2.data ++ ev2.tag) aad2 with
    | none => simp
    | some d => simp

set_option maxRecDepth 100000 in
set_option maxHeartbeats 4000000 in
/-- C15 as amended, at the ciphertext of `hello` with the additional data `a`
under the key of 16 zero bytes, with AES-GCM: the text with the last byte of its
tag changed, the text with the last byte of its nonce changed, the text with the
first byte of its body changed, and the text itself with the additional data
`b`, all fail with `Could not decrypt`. -/
theorem tamper_outcome_witness :
    Decrypt aesgcm (str "a+22og8=.AAAAAAAAAAAAAAAA.eUyi/lQzAhyWdegOkoBXkg==") zeroKey (str "a") =
      .returns ([], .nil, some .couldNotDecrypt) ∧
    Decrypt aesgcm (str "a+22og8=.AAAAAAAAAAAAAAAB.eUyi/lQzAhyWdegOkoBXkw==") zeroKey (str "a") =
      .returns ([], .nil, some .couldNotDecrypt) ∧
    Decrypt aesgcm (str "b+22og8=.AAAAAAAAAAAAAAAA.eUyi/lQzAhyWdegOkoBXkw==") zeroKey (str "a") =
      .returns ([], .nil, some .couldNotDecrypt) ∧
    Decrypt aesgcm (str "a+22og8=.AAAAAAAAAAAAAAAA.eUyi/lQzAhyWdegOkoBXkw==") zeroKey (str "b") =
      .returns ([], .nil, some .couldNotDecrypt) :=
  match tamper_outcome aesgcm zeroNonce (str "hello") zeroKey (str "a")
      (str "a+22og8=.AAAAAAAAAAAAAAAA.eUyi/lQzAhyWdegOkoBXkw==") (by decide)
      (aesgcm_opens_sealed zeroKey zeroNonce.val (str "hello") (str "a"))
      (fun c t1 t2 p1 p2 h1 h2 ho1 ho2 =>
        aesgcm_tag_unique zeroKey zeroNonce.val c t1 t2 (str "a") p1 p2 h1 h2 ho1 ho2)
      (fun n2 c p1 p2 h2 ho1 ho2 =>
        aesgcm_nonce_unique zeroKey n2 zeroNonce.val c (str "a") p2 p1 h2 zeroNonce.property
          ho2 ho1)
      (fun k c1 c2 t p1 p2 hl htk hd ht ho1 ho2 =>
        aesgcm_body_block_unique zeroKey zeroNonce.val c1 c2 t (str "a") p1 p2
          13430172569977596086122814023348925342 k zeroKey_hash_inverse hl htk hd ht ho1 ho2)
      (fun k a2 c p1 p2 hl htk hd ho1 ho2 =>
        aesgcm_aad_block_unique zeroKey zeroNonce.val c a2 (str "a") p2 p1
          13430172569977596086122814023348925342 k zeroKey_hash_inverse hl htk hd ho2 ho1)
      (fun c p ho => aesgcm_seals_opened zeroKey zeroNonce.val c (str "a") p ho)
      (by decide!) with
  | ⟨ev, hparse, _, _, htagc, hnoncec, hbodyc, haadc, _, _, _, _, _⟩ => by
    have hev : ev = ⟨(aesgcmSeal zeroKey zeroNonce.val (str "hello") (str "a")).take 5,
        zeroNonce.val, (aesgcmSeal zeroKey zeroNonce.val (str "hello") (str "a")).drop 5⟩ := by
      have h2 : parse (str "a+22og8=.AAAAAAAAAAAAAAAA.eUyi/lQzAhyWdegOkoBXkw==") =
          .ok ⟨(aesgcmSeal zeroKey zeroNonce.val (str "hello") (str "a")).take 5,
            zeroNonce.val,
            (aesgcmSeal zeroKey zeroNonce.val (str "hello") (str "a")).drop 5⟩ := by
        decide!
      rw [h2] at hparse
      injection hparse with hparse
      exact hparse.symm
    subst hev
    exact ⟨htagc (str "a+22og8=.AAAAAAAAAAAAAAAA.eUyi/lQzAhyWdegOkoBXkg==")
        ⟨(aesgcmSeal zeroKey zeroNonce.val (str "hello") (str "a")).take 5, zeroNonce.val,
          (DecodeString (str "eUyi/lQzAhyWdegOkoBXkg==")).getD []⟩
        (by decide!) rfl rfl (by decide!) (by decide!),
      hnoncec (str "a+22og8=.AAAAAAAAAAAAAAAB.eUyi/lQzAhyWdegOkoBXkw==")
        ⟨(aesgcmSeal zeroKey zeroNonce.val (str "hello") (str "a")).take 5,
          (DecodeString (str "AAAAAAAAAAAAAAAB")).getD [],
          (aesgcmSeal zeroKey zeroNonce.val (str "hello") (str "a")).drop 5⟩
        (by decide!) (by decide!) rfl rfl,
      hbodyc (str "b+22og8=.AAAAAAAAAAAAAAAA.eUyi/lQzAhyWdegOkoBXkw==")
        ⟨(DecodeString (str "b+22og8=")).getD [], zeroNonce.val,
          (aesgcmSeal zeroKey zeroNonce.val (str "hello") (str "a")).drop 5⟩ 0
        (by decide!) rfl rfl (by decide!) rfl (by decide!) (by decide!),
      haadc (str "a+22og8=.AAAAAAAAAAAAAAAA.eUyi/lQzAhyWdegOkoBXkw==")
        ⟨(aesgcmSeal zeroKey zeroNonce.val (str "hello") (str "a")).take 5, zeroNonce.val,
          (aesgcmSeal zeroKey zeroNonce.val (str "hello") (str "a")).drop 5⟩ 0 (str "b")
        hparse rfl rfl (by decide) rfl (by decide) (by decide)⟩

/-- C16 (re-encryption of `Encrypt`'s own output is stable): under a valid key,
past the shortcut and with 12 bytes from the random source, `Encrypt` without a
stash returns a text `C`, `Decrypt` of `C` returns the plaintext and a stash,
and `Encrypt` of the plaintext with that stash returns exactly `C` whatever the
random source does, provided the primitive opens what it has just sealed. -/
theorem reencrypt_stable (lib : Primitive) (nonce : { iv : Bytes // iv.length = gcmNonceSize })
    (plaintext : Str) (key aad : Bytes)
    (hkey : key.length = 16 ∨ key.length = 24 ∨ key.length = 32)
    (hns : ¬ (plaintext = [] ∧ aad = []))
    (hinv : (lib key).openFn nonce.val ((lib key).sealFn nonce.val plaintext aad) aad =
      some plaintext) :
    ∃ C S, Encrypt lib (some nonce) plaintext key aad .nil = .returns (C, none) ∧
      Decrypt lib C key aad = .returns (plaintext, S, none) ∧
      ∀ rand, Encrypt lib rand plaintext key aad S = .returns (C, none) := by
  have hiv := nonce.property
  have henc := Encrypt_fresh lib nonce plaintext key aad hns hkey
  refine ⟨_, .stashed ⟨nonce.val, plaintext⟩, henc, ?_, ?_⟩
  · rw [Decrypt_of_parse lib _ key aad _ (parse_encode _ _ _ hiv), if_pos hkey]
    simp only [List.take_append_drop, hinv]
  · intro rand
    have hch := chooseIV_reuse rand ⟨nonce.val, plaintext⟩
    simp only at hch
    rw [Encrypt_eq lib rand plaintext key aad _ hns hkey, hch]
    simp only
    rw [sealEncode_returns _ _ _ _ hiv]

/-- C16 at the plaintext `hello` under the key of 16 zero bytes, with
AES-GCM. -/
theorem reencrypt_stable_witness :
    ∃ C S, Encrypt aesgcm (some zeroNonce) (str "hello") zeroKey [] .nil = .returns (C, none) ∧
      Decrypt aesgcm C zeroKey [] = .returns (str "hello", S, none) ∧
      ∀ rand, Encrypt aesgcm rand (str "hello") zeroKey [] S = .returns (C, none) :=
  reencrypt_stable aesgcm zeroNonce (str "hello") zeroKey [] (by decide) (by decide)
    (aesgcm_opens_sealed zeroKey zeroNonce.val (str "hello") [])

/-- C17 (shape of the output, safety of the slice): when `Encrypt` succeeds
past the shortcut, the sealed bytes are at least 16 long, so that the slice at
their length minus 16 is in range; the output is not empty and parses to a body
as long as the plaintext, a nonce of 12 bytes and a tag of 16 bytes, which are
the sealed bytes cut there; and the output has two fields exactly when the
plaintext is empty and three otherwise. -/
theorem Encrypt_output_shape (lib : Primitive) (rand : RandRead) (plaintext : Str)
    (key aad : Bytes) (stash : Iface) (C : Str) (hns : ¬ (plaintext = [] ∧ aad = []))
    (h : Encrypt lib rand plaintext key aad stash = .returns (C, none)) :
    C ≠ [] ∧
    ∃ ev, parse C = .ok ev ∧
      aesBlockSize ≤ ((lib key).sealFn ev.iv plaintext aad).length ∧
      (lib key).Seal ev.iv plaintext aad = .returns ((lib key).sealFn ev.iv plaintext aad) ∧
      ev.data = ((lib key).sealFn ev.iv plaintext aad).take
        (((lib key).sealFn ev.iv plaintext aad).length - aesBlockSize) ∧
      ev.tag = ((lib key).sealFn ev.iv plaintext aad).drop
        (((lib key).sealFn ev.iv plaintext aad).length - aesBlockSize) ∧
      ev.data.length = plaintext.length ∧ ev.iv.length = gcmNonceSize ∧
      ev.tag.length = aesBlockSize ∧
      ((Split C).length = 2 ↔ plaintext = []) ∧
      ((Split C).length = 3 ↔ plaintext ≠ []) := by
  obtain ⟨_, iv, _, hiv, hC⟩ := Encrypt_success lib rand plaintext key aad stash C hns h
  have hsl := (lib key).overhead iv plaintext aad hiv
  have hsub : ((lib key).sealFn iv plaintext aad).length - aesBlockSize = plaintext.length := by
    rw [hsl]; simp [gcmTagSize, aesBlockSize]
  have hdl : (((lib key).sealFn iv plaintext aad).take plaintext.length).length =
      plaintext.length := by
    rw [List.length_take, hsl]; omega
  have hdata : ((lib key).sealFn iv plaintext aad).take plaintext.length = [] ↔
      plaintext = [] := by
    rw [← List.length_eq_zero, hdl, List.length_eq_zero]
  have hiv2 : ¬ iv.length ≠ gcmStandardNonceSize := by
    simpa [gcmStandardNonceSize, gcmNonceSize] using hiv
  have hparse := parse_encode (((lib key).sealFn iv plaintext aad).take plaintext.length) iv
    (((lib key).sealFn iv plaintext aad).drop plaintext.length) hiv
  rw [← hC] at hparse
  refine ⟨parse_ok_ne_nil C _ hparse, _, hparse, ?_, ?_, ?_, ?_, hdl, hiv, ?_, ?_, ?_⟩
  · show aesBlockSize ≤ ((lib key).sealFn iv plaintext aad).length
    rw [hsl]; simp [gcmTagSize, aesBlockSize]
  · show (lib key).Seal iv plaintext aad = _
    simp only [AEAD.Seal, if_neg hiv2]
  · show _ = ((lib key).sealFn iv plaintext aad).take _
    rw [hsub]
  · show _ = ((lib key).sealFn iv plaintext aad).drop _
    rw [hsub]
  · show (((lib key).sealFn iv plaintext aad).drop plaintext.length).length = aesBlockSize
    rw [List.length_drop, hsl]; simp [gcmTagSize, aesBlockSize]
  · rw [hC, Split_encode]
    by_cases hp : plaintext = []
    · simp [hdata.mpr hp, hp]
    · simp [mt hdata.mp hp, hp]
  · rw [hC, Split_encode]
    by_cases hp : plaintext = []
    · simp [hdata.mpr hp, hp]
    · simp [mt hdata.mp hp, hp]

set_option maxRecDepth 100000 in
/-- C17 at the plaintext `hello` under the key of 16 zero bytes, with AES-GCM:
the output is not empty. -/
theorem Encrypt_output_shape_witness :
    str "a+22og8=.AAAAAAAAAAAAAAAA./AXzR10pA0yqHMj6NijDnw==" ≠ [] ∧
    ∃ ev, parse (str "a+22og8=.AAAAAAAAAAAAAAAA./AXzR10pA0yqHMj6NijDnw==") = .ok ev ∧
      ev.data.length = (str "hello").length ∧ ev.iv.length = gcmNonceSize ∧
      ev.tag.length = aesBlockSize :=
  match Encrypt_output_shape aesgcm (some zeroNonce) (str "hello") zeroKey [] .nil
      (str "a+22og8=.AAAAAAAAAAAAAAAA./AXzR10pA0yqHMj6NijDnw==") (by decide) (by decide!) with
  | ⟨hne, ev, hparse, _, _, _, _, hd, hi, ht, _, _⟩ => ⟨hne, ev, hparse, hd, hi, ht⟩

/-- C18 (body and tag are seen through their concatenation): for two texts
that `parse` accepts with the same nonce and the same body followed by tag,
`Decrypt` returns the same plaintext, stash and error under every key and
additional data. -/
theorem Decrypt_concatenation (lib : Primitive) (c1 c2 : Str) (key aad : Bytes)
    (ev1 ev2 : encryptedValue) (h1 : parse c1 = .ok ev1) (h2 : parse c2 = .ok ev2)
    (hiv : ev1.iv = ev2.iv) (hcat : ev1.data ++ ev1.tag = ev2.data ++ ev2.tag) :
    Decrypt lib c1 key aad = Decrypt lib c2 key aad := by
  rw [Decrypt_of_parse lib c1 key aad ev1 h1, Decrypt_of_parse lib c2 key aad ev2 h2,
    hiv, hcat]

set_option maxRecDepth 100000 in
/-- C18 at the ciphertext of `hello` and the same text with the last byte of
the body moved into the tag field, under AES-GCM. -/
theorem Decrypt_concatenation_witness :
    Decrypt aesgcm (str "a+22og8=.AAAAAAAAAAAAAAAA./AXzR10pA0yqHMj6NijDnw==") zeroKey [] =
      Decrypt aesgcm (str "a+22og==.AAAAAAAAAAAAAAAA.D/wF80ddKQNMqhzI+jYow58=") zeroKey [] :=
  Decrypt_concatenation aesgcm
    (str "a+22og8=.AAAAAAAAAAAAAAAA./AXzR10pA0yqHMj6NijDnw==")
    (str "a+22og==.AAAAAAAAAAAAAAAA.D/wF80ddKQNMqhzI+jYow58=") zeroKey []
    ⟨(aesgcmSeal zeroKey zeroNonce.val (str "hello") []).take 5, zeroNonce.val,
      (aesgcmSeal zeroKey zeroNonce.val (str "hello") []).drop 5⟩
    ⟨(aesgcmSeal zeroKey zeroNonce.val (str "hello") []).take 4, zeroNonce.val,
      (aesgcmSeal zeroKey zeroNonce.val (str "hello") []).drop 4⟩
    (by decide!) (by decide!) rfl (by decide!)

end Kubesec
